import Mathlib

/-!
Verification development for the MultipleComparisons repository
(n-ary similarity counters and the ECS_MeDiv diversity-selection algorithm).

The Python sources embedded here are:
  * `ECS_MeDiv/ECS_MeDiv.py` : `calculate_counters`, `gen_sim_dict`,
    `calculate_medoid`, `calculate_outlier`, `get_single_index`,
    `get_new_index_n`, and the top-level selection loop;
  * `indices/base.py` : class `BaseComparisons` (fingerprint validation,
    threshold resolution, histogram/binomial matches, counter derivation).

Fingerprints are integer vectors, column sums are integers (`ℤ`), all
weighted quantities are exact rationals (`ℚ`): the Python code computes the
same values in floating point, but every quantity handled by the claims is
a dyadic / small rational, so `ℚ` is the faithful carrier.  Similarity-index
values that involve transcendental functions (`arcsin`, `log`, `sqrt`, `pi`)
are computed in an arbitrary field `V` equipped with an `AnalyticOps V`
record supplying those functions, so the catalog stays executable (e.g. at
`V = ℚ` with explicit function arguments).
-/

/-- A resolved weight scheme, the outcome of parsing the `w_factor`
configuration string: `power k` (from a string containing `"power"` whose
last `_`-separated field parses as the integer `k`), `fraction`, or
identity weights. -/
inductive WScheme
  | power (k : ℤ)
  | fraction
  | identity
deriving DecidableEq

/-- The similarity weight function `f_s` of `calculate_counters`
(`ECS_MeDiv.py`): `power` gives `k ** -(n - d)`, `fraction` gives `d / n`,
anything else gives `1`. -/
def f_s (sch : WScheme) (n : ℕ) (d : ℤ) : ℚ :=
  match sch with
  | .power k => (k : ℚ) ^ (-((n : ℤ) - d))
  | .fraction => (d : ℚ) / (n : ℚ)
  | .identity => 1

/-- The dissimilarity weight function `f_d` of `calculate_counters`:
`power` gives `k ** -(d - n % 2)`, `fraction` gives
`1 - (d - n % 2) / n`, anything else gives `1`. -/
def f_d (sch : WScheme) (n : ℕ) (d : ℤ) : ℚ :=
  match sch with
  | .power k => (k : ℚ) ^ (-(d - ((n : ℤ) % 2)))
  | .fraction => 1 - ((d : ℚ) - ((n % 2 : ℕ) : ℚ)) / (n : ℚ)
  | .identity => 1

/-- The six accumulators of the counting loop of `calculate_counters`
(`a`, `w_a`, `d`, `w_d`, `total_dis`, `total_w_dis`), before the derived
totals are attached. -/
structure RawCounts where
  a : ℕ
  w_a : ℚ
  d : ℕ
  w_d : ℚ
  total_dis : ℕ
  total_w_dis : ℚ
deriving DecidableEq

/-- All accumulators start at zero. -/
def rawZero : RawCounts := ⟨0, 0, 0, 0, 0, 0⟩

/-- One iteration of the `for s in c_total` loop of `calculate_counters`:
`if 2*s - n > c: a += 1; w_a += f_s(2*s - n)`
`elif n - 2*s > c: d += 1; w_d += f_s(abs(2*s - n))`
`else: total_dis += 1; total_w_dis += f_d(abs(2*s - n))`. -/
def counterStep (n : ℕ) (c : ℚ) (sch : WScheme) (acc : RawCounts) (s : ℤ) :
    RawCounts :=
  if 2 * (s : ℚ) - (n : ℚ) > c then
    { acc with a := acc.a + 1, w_a := acc.w_a + f_s sch n (2 * s - (n : ℤ)) }
  else if (n : ℚ) - 2 * (s : ℚ) > c then
    { acc with d := acc.d + 1, w_d := acc.w_d + f_s sch n |2 * s - (n : ℤ)| }
  else
    { acc with total_dis := acc.total_dis + 1,
               total_w_dis := acc.total_w_dis + f_d sch n |2 * s - (n : ℤ)| }

/-- The full counter record returned by `calculate_counters`. -/
structure Counters where
  a : ℕ
  w_a : ℚ
  d : ℕ
  w_d : ℚ
  total_sim : ℕ
  total_w_sim : ℚ
  total_dis : ℕ
  total_w_dis : ℚ
  p : ℕ
  w_p : ℚ
deriving DecidableEq

/-- Attach the derived totals exactly as `calculate_counters` does:
`total_sim = a + d`, `total_w_sim = w_a + w_d`, `p = total_sim + total_dis`,
`w_p = total_w_sim + total_w_dis`. -/
def finalizeCounters (r : RawCounts) : Counters :=
  { a := r.a, w_a := r.w_a, d := r.d, w_d := r.w_d,
    total_sim := r.a + r.d, total_w_sim := r.w_a + r.w_d,
    total_dis := r.total_dis, total_w_dis := r.total_w_dis,
    p := r.a + r.d + r.total_dis, w_p := r.w_a + r.w_d + r.total_w_dis }

/-- The counting core of `calculate_counters` (`ECS_MeDiv.py`, lines
94-119) applied to an already-resolved threshold `c` and weight scheme
`sch`: fold the per-column step over the column sums `c_total` of a
population of `n` fingerprints. -/
def calculate_countersScheme (c_total : List ℤ) (n : ℕ) (c : ℚ)
    (sch : WScheme) : Counters :=
  finalizeCounters (c_total.foldl (counterStep n c sch) rawZero)

/-- The per-column classification rule exactly as the specification words
it: with `signed = 2*s - n`, a column with `signed > c` is 1-similar and
contributes `f_sim(|signed|)` to `w_a`; a column with `n - 2*s > c` is
0-similar and contributes `f_sim(|signed|)` to `w_d`; any other column is
dissimilar and contributes `f_dis(|signed|)` to `total_w_dis`. -/
def specStep (n : ℕ) (c : ℚ) (sch : WScheme) (acc : RawCounts) (s : ℤ) :
    RawCounts :=
  if 2 * (s : ℚ) - (n : ℚ) > c then
    { acc with a := acc.a + 1, w_a := acc.w_a + f_s sch n |2 * s - (n : ℤ)| }
  else if (n : ℚ) - 2 * (s : ℚ) > c then
    { acc with d := acc.d + 1, w_d := acc.w_d + f_s sch n |2 * s - (n : ℤ)| }
  else
    { acc with total_dis := acc.total_dis + 1,
               total_w_dis := acc.total_w_dis + f_d sch n |2 * s - (n : ℤ)| }

/-- The counters the specification's classification rule produces. -/
def specCounters (c_total : List ℤ) (n : ℕ) (c : ℚ) (sch : WScheme) :
    Counters :=
  finalizeCounters (c_total.foldl (specStep n c sch) rawZero)

/-- C1: for every aggregate of column sums, population `n`, nonnegative
resolved threshold `c` and weight scheme, the counter engine classifies
each column sum `s` by `signed = 2*s - n`: if `signed > c` it increments
`a` and adds `f_sim(|signed|)` to `w_a`; else if `n - 2*s > c` it
increments `d` and adds `f_sim(|signed|)` to `w_d`; otherwise it
increments `total_dis` and adds `f_dis(|signed|)` to `total_w_dis`. -/
theorem c1_counter_classification (c_total : List ℤ) (n : ℕ) (c : ℚ)
    (sch : WScheme) (hc : 0 ≤ c) :
    calculate_countersScheme c_total n c sch = specCounters c_total n c sch := by
  unfold calculate_countersScheme specCounters
  congr 1
  apply List.foldl_ext
  intro acc s _
  unfold counterStep specStep
  by_cases h1 : 2 * (s : ℚ) - (n : ℚ) > c
  · have hpos : (0 : ℚ) < 2 * (s : ℚ) - (n : ℚ) := lt_of_le_of_lt hc h1
    have hposz : (0 : ℤ) < 2 * s - (n : ℤ) := by
      have : ((0 : ℤ) : ℚ) < ((2 * s - (n : ℤ) : ℤ) : ℚ) := by push_cast; linarith
      exact_mod_cast this
    rw [if_pos h1, if_pos h1, abs_of_pos hposz]
  · rw [if_neg h1, if_neg h1]

/-- C1 witness: the classification theorem applied at the spec's own
end-to-end example (column sums `[3, 2, 1]`, `n = 4`, threshold `0`,
fraction weights). -/
theorem c1_counter_classification_witness :
    (0 : ℚ) ≤ 0 ∧
      calculate_countersScheme [3, 2, 1] 4 0 .fraction =
        specCounters [3, 2, 1] 4 0 .fraction :=
  ⟨le_refl 0, c1_counter_classification [3, 2, 1] 4 0 .fraction (le_refl 0)⟩

/-- C2: for every aggregate, population, threshold and weight scheme, the
counters returned by the engine satisfy `a + d + total_dis = p` and
`w_a + w_d + total_w_dis = w_p`. -/
theorem c2_counter_conservation (c_total : List ℤ) (n : ℕ) (c : ℚ)
    (sch : WScheme) :
    (calculate_countersScheme c_total n c sch).a +
        (calculate_countersScheme c_total n c sch).d +
        (calculate_countersScheme c_total n c sch).total_dis =
      (calculate_countersScheme c_total n c sch).p ∧
    (calculate_countersScheme c_total n c sch).w_a +
        (calculate_countersScheme c_total n c sch).w_d +
        (calculate_countersScheme c_total n c sch).total_w_dis =
      (calculate_countersScheme c_total n c sch).w_p :=
  ⟨rfl, rfl⟩

/-- The Python exception classes relevant to the embedded code paths. -/
inductive PyErr
  | valueError
  | typeError
  | attributeError
deriving DecidableEq

/-- A Python value passed as `c_threshold`: `None`, a string, an `int`, or
a `float` (held exactly as a rational). -/
inductive CInput
  | noneV
  | str (s : String)
  | intV (z : ℤ)
  | floatV (q : ℚ)
deriving DecidableEq

/-- Python truthiness of a `c_threshold` value: `None`, `""`, `0` and
`0.0` are falsy. -/
def pyTruthy : CInput → Bool
  | .noneV => false
  | .str s => s ≠ ""
  | .intV z => z ≠ 0
  | .floatV q => q ≠ 0

/-- Threshold resolution of `calculate_counters` (`ECS_MeDiv.py`, lines
51-64).  The Python code reassigns the local variable step by step:
a falsy value or `'min'` becomes the int `n % 2`; a remaining string must
be `'dissimilar'` (becoming the int `ceil(n/2)`, re-checked against `n`)
or raises `TypeError`; an int `>= n` raises `ValueError`; finally a value
strictly between 0 and 1 is multiplied by `n` (which can only hit the
float case). -/
def resolve_c_ecs (n : ℕ) (cIn : CInput) : Except PyErr ℚ :=
  let c1 : CInput :=
    if !(pyTruthy cIn) || cIn = .str "min" then .intV ((n : ℤ) % 2) else cIn
  match c1 with
  | .noneV => .ok (((n : ℤ) % 2 : ℤ) : ℚ)
  | .str s =>
    if s = "dissimilar" then
      if ((n + 1) / 2 : ℕ) ≥ n then .error .valueError
      else .ok (((n + 1) / 2 : ℕ) : ℚ)
    else .error .typeError
  | .intV z => if z ≥ (n : ℤ) then .error .valueError else .ok (z : ℚ)
  | .floatV q => if 0 < q ∧ q < 1 then .ok (q * n) else .ok q

instance {ε α : Type} [DecidableEq ε] [DecidableEq α] :
    DecidableEq (Except ε α) := fun a b =>
  match a, b with
  | .ok x, .ok y =>
    if h : x = y then isTrue (by rw [h]) else isFalse (by simp [h])
  | .error x, .error y =>
    if h : x = y then isTrue (by rw [h]) else isFalse (by simp [h])
  | .ok _, .error _ => isFalse (by simp)
  | .error _, .ok _ => isFalse (by simp)

/-- C3 counterexample: the claim says an explicit integer `c_threshold` in
`[0, n)` is used directly, but the integer `0` is falsy in Python, so for
`n = 3` the resolved threshold is `3 % 2 = 1`, not `0`. -/
theorem c3_counterexample :
    resolve_c_ecs 3 (.intV 0) ≠ .ok 0 ∧ resolve_c_ecs 3 (.intV 0) = .ok 1 := by
  constructor
  · decide
  · decide

/-- C3 (amended): for every population `n ≥ 2`, an unset (`None`) or
`'min'` threshold resolves to `n % 2`; `'dissimilar'` resolves to
`ceil(n/2)`; an explicit integer in `[1, n)` is used directly, while the
integer `0` is treated like unset and resolves to `n % 2`; a fractional
value in `(0, 1)` is multiplied by `n`. -/
theorem c3_threshold_resolution (n : ℕ) (hn : 2 ≤ n) :
    resolve_c_ecs n .noneV = .ok (((n : ℤ) % 2 : ℤ) : ℚ) ∧
    resolve_c_ecs n (.str "min") = .ok (((n : ℤ) % 2 : ℤ) : ℚ) ∧
    resolve_c_ecs n (.str "dissimilar") = .ok (((n + 1) / 2 : ℕ) : ℚ) ∧
    (∀ z : ℤ, 1 ≤ z → z < (n : ℤ) →
      resolve_c_ecs n (.intV z) = .ok (z : ℚ)) ∧
    resolve_c_ecs n (.intV 0) = .ok (((n : ℤ) % 2 : ℤ) : ℚ) ∧
    (∀ q : ℚ, 0 < q → q < 1 →
      resolve_c_ecs n (.floatV q) = .ok (q * n)) := by
  have hmod : ¬ ((n : ℤ) % 2 ≥ (n : ℤ)) := by
    have h0 : (n : ℤ) % 2 < 2 := Int.emod_lt_of_pos _ (by norm_num)
    omega
  refine ⟨?_, ?_, ?_, ?_, ?_, ?_⟩
  · simp [resolve_c_ecs, pyTruthy, hmod]
  · simp [resolve_c_ecs, pyTruthy, hmod]
  · have hne : ("dissimilar" : String) ≠ "min" := by decide
    have hne2 : ("dissimilar" : String) ≠ "" := by decide
    have hceil : ¬ ((n + 1) / 2 ≥ n) := by omega
    simp [resolve_c_ecs, pyTruthy, hne, hne2, hceil]
  · intro z h1 h2
    have hz : z ≠ 0 := by omega
    have hzn : ¬ (z ≥ (n : ℤ)) := by omega
    simp [resolve_c_ecs, pyTruthy, hz, hzn]
  · simp [resolve_c_ecs, pyTruthy, hmod]
  · intro q h1 h2
    have hq : q ≠ 0 := ne_of_gt h1
    simp [resolve_c_ecs, pyTruthy, hq, h1, h2]

/-- C3 witness: the resolution rules evaluated at `n = 3` with the integer
`2` and the fraction `1/2`. -/
theorem c3_threshold_resolution_witness :
    resolve_c_ecs 3 .noneV = .ok 1 ∧
      resolve_c_ecs 3 (.str "dissimilar") = .ok 2 ∧
      resolve_c_ecs 3 (.intV 2) = .ok 2 ∧
      resolve_c_ecs 3 (.floatV (1 / 2)) = .ok (3 / 2) := by
  obtain ⟨h1, _, h3, h4, _, h6⟩ := c3_threshold_resolution 3 (by norm_num)
  refine ⟨by rw [h1]; norm_num, by rw [h3]; norm_num, ?_, ?_⟩
  · rw [h4 2 (by norm_num) (by norm_num)]
    norm_num
  · rw [h6 (1 / 2) (by norm_num) (by norm_num)]
    norm_num

/-- Substring test on character lists: does `p` occur contiguously inside
the second list?  (Models Python's `"power" in w_factor`.) -/
def subOf (p : List Char) : List Char → Bool
  | [] => p.isEmpty
  | c :: rest => p.isPrefixOf (c :: rest) || subOf p rest

/-- Python's `pat in s` on strings. -/
def pyStrContains (s pat : String) : Bool := subOf pat.toList s.toList

/-- `str.split(sep)` for a one-character separator, on character lists;
always returns at least one (possibly empty) field, like Python. -/
def splitOnChar (sep : Char) : List Char → List (List Char)
  | [] => [[]]
  | c :: rest =>
    let r := splitOnChar sep rest
    if c = sep then [] :: r else (c :: r.headD []) :: r.tail

/-- Digit-string accumulator for `int(...)`. -/
def pyIntAux : List Char → ℤ → Option ℤ
  | [], acc => some acc
  | c :: rest, acc =>
    if c.isDigit then pyIntAux rest (10 * acc + ((c.toNat : ℤ) - 48))
    else none

/-- Python's `int(string)` on a simple (optionally signed) digit string:
`none` models the `ValueError` raised on anything that does not parse. -/
def pyInt : List Char → Option ℤ
  | [] => none
  | c :: rest =>
    if c = '-' then
      if rest.isEmpty then none else (pyIntAux rest 0).map Neg.neg
    else if c = '+' then
      if rest.isEmpty then none else pyIntAux rest 0
    else pyIntAux (c :: rest) 0

/-- The last `_`-separated field of a string, which
`w_factor.split("_")[-1]` extracts. -/
def lastField (s : String) : List Char := (splitOnChar '_' s.toList).getLastD []

/-- Weight-scheme resolution of `calculate_counters` (`ECS_MeDiv.py`,
lines 66-92): a falsy `w_factor` gives identity weights; a string
containing `"power"` parses its last `_`-field as the power (raising
`ValueError` if that fails); the string `"fraction"` selects fraction
weights; anything else gives identity weights. -/
def resolve_w_ecs (w : Option String) : Except PyErr WScheme :=
  match w with
  | none => .ok .identity
  | some s =>
    if s = "" then .ok .identity
    else if pyStrContains s "power" then
      match pyInt (lastField s) with
      | some k => .ok (.power k)
      | none => .error .valueError
    else if s = "fraction" then .ok .fraction
    else .ok .identity

/-- Weight-scheme resolution of `BaseComparisons.set_w_factor`
(`indices/base.py`, lines 206-245): only the literal string `"power_n"`
enters the power branch, where `int("n")` always raises `ValueError`;
`"fraction"` selects fraction weights; every other value (including
`"power_2"`!) silently gives identity weights. -/
def resolve_w_base (w : Option String) : Except PyErr WScheme :=
  match w with
  | some s =>
    if s = "power_n" then .error .valueError
    else if s = "fraction" then .ok .fraction
    else .ok .identity
  | none => .ok .identity

/-- C7 counterexample: the claim says every `w_factor` other than
`power_k` shapes and `fraction` yields identity weights, but the string
`"power"` (which contains `"power"` yet has no integer field) makes
`calculate_counters` raise `ValueError` instead. -/
theorem c7_counterexample :
    resolve_w_ecs (some "power") = .error .valueError ∧
      resolve_w_ecs (some "power") ≠ .ok .identity := by
  constructor
  · decide
  · decide

/-- C7 (amended): in `calculate_counters`, a `w_factor` string of shape
`power_k` (it contains `"power"` and its last `_`-field parses as the
integer `k > 0`) selects the power weighting scheme, whose weights applied
to the per-column measure `d = |2s - n|` are `f_s(d) = k^-(n - d)` and
`f_d(d) = k^-(d - n mod 2)`; the string `fraction` selects the fraction
scheme `f_s(d) = d/n`, `f_d(d) = 1 - (d - n mod 2)/n`; a `w_factor` value
that does not contain `"power"` and is not `fraction` yields identity
weights, while a string containing `"power"` whose last `_`-field is not
an integer raises `ValueError`. -/
theorem c7_w_factor_resolution :
    (∀ (s : String) (k : ℤ), 0 < k → pyStrContains s "power" = true →
      pyInt (lastField s) = some k →
      resolve_w_ecs (some s) = .ok (.power k) ∧
        (∀ (n : ℕ) (d : ℤ), f_s (.power k) n d = (k : ℚ) ^ (-((n : ℤ) - d)) ∧
          f_d (.power k) n d = (k : ℚ) ^ (-(d - ((n : ℤ) % 2))))) ∧
    (resolve_w_ecs (some "fraction") = .ok .fraction ∧
      (∀ (n : ℕ) (d : ℤ), f_s .fraction n d = (d : ℚ) / n ∧
        f_d .fraction n d = 1 - ((d : ℚ) - ((n % 2 : ℕ) : ℚ)) / n)) ∧
    (∀ s : String, pyStrContains s "power" = false → s ≠ "fraction" →
      resolve_w_ecs (some s) = .ok .identity ∧
        (∀ (n : ℕ) (d : ℤ), f_s .identity n d = 1 ∧ f_d .identity n d = 1)) ∧
    resolve_w_ecs none = .ok .identity := by
  refine ⟨?_, ⟨by decide, fun n d => ⟨rfl, rfl⟩⟩, ?_, rfl⟩
  · intro s k _ hcont hparse
    have hne : s ≠ "" := by
      intro h
      rw [h] at hcont
      exact absurd hcont (by decide)
    refine ⟨?_, fun n d => ⟨rfl, rfl⟩⟩
    rw [resolve_w_ecs, if_neg hne, if_pos hcont, hparse]
  · intro s hcont hfrac
    refine ⟨?_, fun n d => ⟨rfl, rfl⟩⟩
    by_cases hse : s = ""
    · rw [resolve_w_ecs, if_pos hse]
    · rw [resolve_w_ecs, if_neg hse, if_neg (by rw [hcont]; simp),
        if_neg hfrac]

/-- C7 witness: the resolution applied concretely to `power_2`,
`fraction` and `jaccard`. -/
theorem c7_w_factor_resolution_witness :
    resolve_w_ecs (some "power_2") = .ok (.power 2) ∧
      resolve_w_ecs (some "fraction") = .ok .fraction ∧
      resolve_w_ecs (some "jaccard") = .ok .identity := by
  obtain ⟨hp, ⟨hf, _⟩, ho, _⟩ := c7_w_factor_resolution
  exact ⟨(hp "power_2" 2 (by norm_num) (by decide) (by decide)).1, hf,
    (ho "jaccard" (by decide) (by decide)).1⟩

/-- Threshold resolution of `BaseComparisons.assign_c_threshold`
(`indices/base.py`, lines 154-182).  Unlike `calculate_counters`, the
local variable is never reassigned, so each `isinstance` test sees the
original argument: a falsy value sets `n % 2`; a string must be
`'dissimilar'` (giving `ceil(n/2)`, with no further check) or raises
`TypeError`; an int `>= n` raises `ValueError`, any other int (including
`0`, overwriting the falsy default) is kept; a nonzero float matches no
branch at all, leaving the attribute unset (a later `AttributeError`).
Note there is no fractional scaling here. -/
def resolve_c_base (n : ℕ) (cIn : CInput) : Except PyErr ℚ :=
  match cIn with
  | .noneV => .ok (((n : ℤ) % 2 : ℤ) : ℚ)
  | .str s =>
    if s = "dissimilar" then .ok (((n + 1) / 2 : ℕ) : ℚ)
    else .error .typeError
  | .intV z => if z ≥ (n : ℤ) then .error .valueError else .ok (z : ℚ)
  | .floatV q =>
    if q = 0 then .ok (((n : ℤ) % 2 : ℤ) : ℚ) else .error .attributeError

/-- The `fingerprints` argument of `BaseComparisons`: either an `int`
(theoretical population) or an array of fingerprints. -/
inductive FPInput
  | intMode (z : ℤ)
  | arrayMode (fps : List (List ℤ))

/-- Do all fingerprints have the length of the first one? -/
def lengthsOk (fps : List (List ℤ)) : Bool :=
  fps.all (fun fp => fp.length == (fps.headD []).length)

/-- `BaseComparisons.assign_fingerprints` (`indices/base.py`, lines
117-152): an int must be positive; an array must hold at least two
fingerprints, all of the same length. -/
def assign_fingerprints : FPInput → Except PyErr Unit
  | .intMode z => if z ≤ 0 then .error .valueError else .ok ()
  | .arrayMode fps =>
    if fps.length < 2 then .error .valueError
    else if lengthsOk fps then .ok ()
    else .error .valueError

/-- The `n_fingerprints` property. -/
def nFingerprints : FPInput → ℕ
  | .intMode z => z.toNat
  | .arrayMode fps => fps.length

/-- Element-wise sum of a list of equal-length integer rows
(`np.sum(..., axis=0)`). -/
def sumRows (rows : List (List ℤ)) : List ℤ :=
  rows.foldl (List.zipWith (· + ·)) (List.replicate (rows.headD []).length 0)

/-- `BaseComparisons.set_matches` in array mode: `matches[k]` is the
number of columns whose sum equals `k`. -/
def histArray (fps : List (List ℤ)) : ℕ → ℕ :=
  fun k => (sumRows fps).count (k : ℤ)

/-- The `d_vector` entries `|2k - n|` of `BaseComparisons.set_d_vector`. -/
def d_vector (n k : ℕ) : ℤ := |2 * (k : ℤ) - (n : ℤ)|

/-- The `weights[k]` table of `BaseComparisons.set_w_factor`: `f_s` where
`d_vector[k] > c_threshold`, `f_d` elsewhere. -/
def baseWeight (n : ℕ) (c : ℚ) (sch : WScheme) (k : ℕ) : ℚ :=
  if ((d_vector n k : ℤ) : ℚ) > c then f_s sch n (d_vector n k)
  else f_d sch n (d_vector n k)

/-- `BaseComparisons.set_a`: sum of `matches[k]` over `2k - n > c`. -/
def baseSumA (mts : ℕ → ℕ) (n : ℕ) (c : ℚ) : ℕ :=
  ∑ k in Finset.range (n + 1), if 2 * (k : ℚ) - (n : ℚ) > c then mts k else 0

def baseSumD (mts : ℕ → ℕ) (n : ℕ) (c : ℚ) : ℕ :=
  ∑ k in Finset.range (n + 1), if (n : ℚ) - 2 * (k : ℚ) > c then mts k else 0

def baseSumWA (mts : ℕ → ℕ) (n : ℕ) (c : ℚ) (sch : WScheme) : ℚ :=
  ∑ k in Finset.range (n + 1),
    if 2 * (k : ℚ) - (n : ℚ) > c then (mts k : ℚ) * baseWeight n c sch k else 0

def baseSumWD (mts : ℕ → ℕ) (n : ℕ) (c : ℚ) (sch : WScheme) : ℚ :=
  ∑ k in Finset.range (n + 1),
    if (n : ℚ) - 2 * (k : ℚ) > c then (mts k : ℚ) * baseWeight n c sch k else 0

def baseSumDis (mts : ℕ → ℕ) (n : ℕ) (c : ℚ) : ℕ :=
  ∑ k in Finset.range (n + 1),
    if ((d_vector n k : ℤ) : ℚ) ≤ c then mts k else 0

def baseSumWDis (mts : ℕ → ℕ) (n : ℕ) (c : ℚ) (sch : WScheme) : ℚ :=
  ∑ k in Finset.range (n + 1),
    if ((d_vector n k : ℤ) : ℚ) ≤ c then (mts k : ℚ) * baseWeight n c sch k else 0

/-- The counters of `BaseComparisons` computed from a matches histogram
(`set_a`, `set_d`, `set_weighted_a`, `set_weighted_d`,
`set_dis_counters`, `total_dis_counters` and the weighted versions, plus
the derived totals of `set_p` / `set_weighted_p`). -/
def baseCounters (mts : ℕ → ℕ) (n : ℕ) (c : ℚ) (sch : WScheme) :
    Counters :=
  { a := baseSumA mts n c, w_a := baseSumWA mts n c sch,
    d := baseSumD mts n c, w_d := baseSumWD mts n c sch,
    total_sim := baseSumA mts n c + baseSumD mts n c,
    total_w_sim := baseSumWA mts n c sch + baseSumWD mts n c sch,
    total_dis := baseSumDis mts n c, total_w_dis := baseSumWDis mts n c sch,
    p := baseSumA mts n c + baseSumD mts n c + baseSumDis mts n c,
    w_p := baseSumWA mts n c sch + baseSumWD mts n c sch + baseSumWDis mts n c sch }

/-- The constructor `BaseComparisons.__init__`: fingerprint validation,
threshold resolution and weight-scheme resolution happen, in that order,
before any counters are computed; the theoretical (`int`) mode uses the
binomial histogram `matches[k] = C(n, k)`, the array mode the observed
column-sum histogram. -/
def mkBaseComparisons (fp : FPInput) (cIn : CInput) (w : Option String) :
    Except PyErr Counters :=
  match assign_fingerprints fp with
  | .error e => .error e
  | .ok _ =>
    match resolve_c_base (nFingerprints fp) cIn with
    | .error e => .error e
    | .ok c =>
      match resolve_w_base w with
      | .error e => .error e
      | .ok sch =>
        match fp with
        | .intMode _ =>
          .ok (baseCounters (Nat.choose (nFingerprints fp)) (nFingerprints fp) c sch)
        | .arrayMode fps =>
          .ok (baseCounters (histArray fps) (nFingerprints fp) c sch)

/-- Did the `Except` computation succeed? -/
def isOkE {α : Type} (e : Except PyErr α) : Bool :=
  match e with
  | .ok _ => true
  | .error _ => false

/-- C8 counterexample: the claim says requesting a weighting power with
non-positive exponent raises a validation error before any counting, but
`BaseComparisons` accepts `w_factor = "power_0"` without any error (its
`set_w_factor` matches only the literal `"power_n"`, so `power_0` silently
gets identity weights) and produces counters. -/
theorem c8_counterexample :
    isOkE (mkBaseComparisons (.arrayMode [[1, 0], [0, 1]]) .noneV
      (some "power_0")) = true ∧
      mkBaseComparisons (.arrayMode [[1, 0], [0, 1]]) .noneV (some "power_0") =
        mkBaseComparisons (.arrayMode [[1, 0], [0, 1]]) .noneV (some "anything") := by
  constructor
  · rfl
  · rfl

/-- C8 (amended): constructing `BaseComparisons` on an array of
fingerprints with a `c_threshold` that is unset, `'dissimilar'` or an
integer raises an error — before any counting work, so no counters are
produced — exactly when fewer than 2 fingerprints are provided, when the
fingerprints do not all have the same length, when an integer
`c_threshold` is `>= n`, or when the literal `w_factor` string
`"power_n"` is passed (whose `int("n")` fails).  No validation of the
weighting power is performed: `power_0` or `power_-1` are accepted
silently (and resolve to identity weights). -/
theorem c8_validation_errors (fps : List (List ℤ)) (cIn : CInput)
    (w : Option String)
    (hc : cIn = .noneV ∨ cIn = .str "dissimilar" ∨ ∃ z, cIn = .intV z) :
    isOkE (mkBaseComparisons (.arrayMode fps) cIn w) = false ↔
      (fps.length < 2 ∨ lengthsOk fps = false ∨
        (∃ z : ℤ, cIn = .intV z ∧ (fps.length : ℤ) ≤ z) ∨
        w = some "power_n") := by
  by_cases h2 : fps.length < 2
  · simp only [mkBaseComparisons, assign_fingerprints, if_pos h2, isOkE]
    simp [h2]
  · by_cases h3 : lengthsOk fps
    · have hwb : ∀ s : String, s ≠ "power_n" →
          ∃ sch, resolve_w_base (some s) = .ok sch := by
        intro s hs
        rw [resolve_w_base]
        rw [if_neg hs]
        by_cases hf : s = "fraction"
        · exact ⟨.fraction, by rw [if_pos hf]⟩
        · exact ⟨.identity, by rw [if_neg hf]⟩
      have hcok : ∃ cq, resolve_c_base fps.length cIn = .ok cq ∨
          (∃ z : ℤ, cIn = .intV z ∧ (fps.length : ℤ) ≤ z ∧
            resolve_c_base fps.length cIn = .error .valueError) := by
        rcases hc with h | h | ⟨z, h⟩ <;> subst h
        · exact ⟨_, Or.inl rfl⟩
        · exact ⟨_, Or.inl (by rw [resolve_c_base, if_pos rfl])⟩
        · by_cases hz : z ≥ (fps.length : ℤ)
          · exact ⟨0, Or.inr ⟨z, rfl, hz, by rw [resolve_c_base, if_pos hz]⟩⟩
          · exact ⟨(z : ℚ), Or.inl (by rw [resolve_c_base, if_neg hz])⟩
      obtain ⟨cq, hcq | ⟨z, hz1, hz2, hz3⟩⟩ := hcok
      · rcases w with _ | s
        · simp only [mkBaseComparisons, assign_fingerprints, if_neg h2,
            if_pos h3, nFingerprints, hcq, resolve_w_base, isOkE]
          refine iff_of_false (by simp) ?_
          push_neg
          refine ⟨by omega, by simp [h3], ?_, by simp⟩
          intro z hzz
          rw [hzz] at hcq
          rw [resolve_c_base] at hcq
          by_contra hge
          rw [if_pos (by omega)] at hcq
          exact absurd hcq (by simp)
        · by_cases hs : s = "power_n"
          · subst hs
            simp only [mkBaseComparisons, assign_fingerprints, if_neg h2,
              if_pos h3, nFingerprints, hcq, resolve_w_base, if_pos rfl, isOkE]
            simp
          · obtain ⟨sch, hsch⟩ := hwb s hs
            simp only [mkBaseComparisons, assign_fingerprints, if_neg h2,
              if_pos h3, nFingerprints, hcq, hsch, isOkE]
            refine iff_of_false (by simp) ?_
            push_neg
            refine ⟨by omega, by simp [h3], ?_, by simp [hs]⟩
            intro z hzz
            rw [hzz] at hcq
            rw [resolve_c_base] at hcq
            by_contra hge
            rw [if_pos (by omega)] at hcq
            exact absurd hcq (by simp)
      · subst hz1
        simp only [mkBaseComparisons, assign_fingerprints, if_neg h2,
          if_pos h3, nFingerprints, hz3, isOkE]
        exact iff_of_true (by trivial) (Or.inr (Or.inr (Or.inl ⟨z, rfl, hz2⟩)))
    · have h3f : lengthsOk fps = false := by
        simpa using h3
      simp only [mkBaseComparisons, assign_fingerprints, if_neg h2, h3f,
        Bool.false_eq_true, if_false, isOkE]
      simp [h3f]

/-- C8 witness: the amended error characterization applied concretely —
an integer threshold `5 ≥ n = 2` is rejected, while a well-formed call is
accepted. -/
theorem c8_validation_errors_witness :
    isOkE (mkBaseComparisons (.arrayMode [[1, 0], [0, 1]]) (.intV 5) none)
        = false ∧
      isOkE (mkBaseComparisons (.arrayMode [[1, 0], [0, 1]]) .noneV none)
        = true := by
  constructor
  · exact (c8_validation_errors [[1, 0], [0, 1]] (.intV 5) none
      (Or.inr (Or.inr ⟨5, rfl⟩))).mpr
      (Or.inr (Or.inr (Or.inl ⟨5, rfl, by norm_num⟩)))
  · have h := (c8_validation_errors [[1, 0], [0, 1]] .noneV none
      (Or.inl rfl))
    by_contra hfalse
    have : isOkE (mkBaseComparisons (.arrayMode [[1, 0], [0, 1]]) .noneV none)
        = false := by
      revert hfalse
      cases isOkE (mkBaseComparisons (.arrayMode [[1, 0], [0, 1]]) .noneV none) <;>
        simp
    rcases h.mp this with h' | h' | ⟨z, hz, _⟩ | h'
    · norm_num at h'
    · revert h'
      decide
    · cases hz
    · cases h'

/-- Is a column sum classified 1-similar by the counting loop? -/
def colA (n : ℕ) (c : ℚ) (s : ℤ) : Bool :=
  decide (2 * (s : ℚ) - (n : ℚ) > c)

/-- Is a column sum classified 0-similar (the `elif` branch)? -/
def colD (n : ℕ) (c : ℚ) (s : ℤ) : Bool :=
  !colA n c s && decide ((n : ℚ) - 2 * (s : ℚ) > c)

/-- Is a column sum classified dissimilar (the `else` branch)? -/
def colDis (n : ℕ) (c : ℚ) (s : ℤ) : Bool :=
  !colA n c s && !decide ((n : ℚ) - 2 * (s : ℚ) > c)

/-- Per-column contribution to `w_a`. -/
def wContribA (n : ℕ) (c : ℚ) (sch : WScheme) (s : ℤ) : ℚ :=
  if colA n c s then f_s sch n (2 * s - (n : ℤ)) else 0

/-- Per-column contribution to `w_d`. -/
def wContribD (n : ℕ) (c : ℚ) (sch : WScheme) (s : ℤ) : ℚ :=
  if colD n c s then f_s sch n |2 * s - (n : ℤ)| else 0

/-- Per-column contribution to `total_w_dis`. -/
def wContribDis (n : ℕ) (c : ℚ) (sch : WScheme) (s : ℤ) : ℚ :=
  if colDis n c s then f_d sch n |2 * s - (n : ℤ)| else 0

/-- The counting fold computes, per field, a count / sum of the
per-column classifications and contributions. -/
lemma fold_counterStep (n : ℕ) (c : ℚ) (sch : WScheme) (l : List ℤ) :
    ∀ acc : RawCounts,
      l.foldl (counterStep n c sch) acc =
        ⟨acc.a + l.countP (colA n c),
         acc.w_a + (l.map (wContribA n c sch)).sum,
         acc.d + l.countP (colD n c),
         acc.w_d + (l.map (wContribD n c sch)).sum,
         acc.total_dis + l.countP (colDis n c),
         acc.total_w_dis + (l.map (wContribDis n c sch)).sum⟩ := by
  induction l with
  | nil => intro acc; simp
  | cons s l ih =>
    intro acc
    rw [List.foldl_cons, ih]
    rw [List.countP_cons, List.countP_cons, List.countP_cons,
      List.map_cons, List.sum_cons, List.map_cons, List.sum_cons,
      List.map_cons, List.sum_cons]
    by_cases h1 : 2 * (s : ℚ) - (n : ℚ) > c
    · have hA : colA n c s = true := by simp [colA, h1]
      have hD : colD n c s = false := by simp [colD, hA]
      have hDis : colDis n c s = false := by simp [colDis, hA]
      rw [counterStep, if_pos h1]
      simp only [RawCounts.mk.injEq, hA, hD, hDis, wContribA, wContribD,
        wContribDis, if_true, if_false, Bool.false_eq_true]
      refine ⟨by omega, by ring, by omega, by ring, by omega, by ring⟩
    · by_cases h2 : (n : ℚ) - 2 * (s : ℚ) > c
      · have hA : colA n c s = false := by simp [colA, h1]
        have hD : colD n c s = true := by simp [colD, colA, h1, h2]
        have hDis : colDis n c s = false := by simp [colDis, colA, h1, h2]
        rw [counterStep, if_neg h1, if_pos h2]
        simp only [RawCounts.mk.injEq, hA, hD, hDis, wContribA, wContribD,
          wContribDis, if_true, if_false, Bool.false_eq_true]
        refine ⟨by omega, by ring, by omega, by ring, by omega, by ring⟩
      · have hA : colA n c s = false := by simp [colA, h1]
        have hD : colD n c s = false := by simp [colD, colA, h1, h2]
        have hDis : colDis n c s = true := by simp [colDis, colA, h1, h2]
        rw [counterStep, if_neg h1, if_neg h2]
        simp only [RawCounts.mk.injEq, hA, hD, hDis, wContribA, wContribD,
          wContribDis, if_true, if_false, Bool.false_eq_true]
        refine ⟨by omega, by ring, by omega, by ring, by omega, by ring⟩

/-- Summing an indicator of `k = s` over `0..n` picks out `s`. -/
lemma sum_delta {M : Type} [AddCommMonoid M] (n : ℕ) (s : ℤ) (hs0 : 0 ≤ s)
    (hsn : s ≤ (n : ℤ)) (g : ℕ → M) :
    (∑ k in Finset.range (n + 1), if (k : ℤ) = s then g k else 0) =
      g s.toNat := by
  have hmem : s.toNat ∈ Finset.range (n + 1) := by
    rw [Finset.mem_range]
    omega
  have hcong : ∀ k ∈ Finset.range (n + 1),
      (if (k : ℤ) = s then g k else 0) = (if k = s.toNat then g k else 0) := by
    intro k _
    have : ((k : ℤ) = s) ↔ (k = s.toNat) := by omega
    rw [if_congr this rfl rfl]
  rw [Finset.sum_congr rfl hcong,
    Finset.sum_ite_eq' (Finset.range (n + 1)) s.toNat g, if_pos hmem]

/-- A `countP` over a bounded list of column sums equals the histogram
sum of the predicate over `0..n`. -/
lemma countP_hist (n : ℕ) (p : ℤ → Bool) :
    ∀ l : List ℤ, (∀ s ∈ l, 0 ≤ s ∧ s ≤ (n : ℤ)) →
      l.countP p =
        ∑ k in Finset.range (n + 1), if p (k : ℤ) then l.count (k : ℤ) else 0 := by
  intro l
  induction l with
  | nil => intro _; simp
  | cons s l ih =>
    intro hb
    have hs := hb s (by simp)
    have ihl := ih (fun x hx => hb x (by simp [hx]))
    rw [List.countP_cons, ihl]
    have hsplit : ∀ k ∈ Finset.range (n + 1),
        (if p (k : ℤ) then (s :: l).count (k : ℤ) else 0) =
          (if p (k : ℤ) then l.count (k : ℤ) else 0) +
            (if (k : ℤ) = s then (if p (k : ℤ) then 1 else 0) else 0) := by
      intro k _
      rw [List.count_cons]
      rcases em ((k : ℤ) = s) with he | he
      · subst he
        by_cases hp : p ((k : ℕ) : ℤ) <;> simp [hp]
      · have he2 : ¬ (s = (k : ℤ)) := fun h => he h.symm
        by_cases hp : p (k : ℤ) <;> simp [hp, he, he2]
    rw [Finset.sum_congr rfl hsplit, Finset.sum_add_distrib,
      sum_delta n s hs.1 hs.2 (fun k => if p (k : ℤ) then 1 else 0)]
    have : ((s.toNat : ℤ)) = s := Int.toNat_of_nonneg hs.1
    rw [this]

/-- A mapped sum over a bounded list of column sums equals the
histogram-weighted sum over `0..n`. -/
lemma mapsum_hist (n : ℕ) (g : ℤ → ℚ) :
    ∀ l : List ℤ, (∀ s ∈ l, 0 ≤ s ∧ s ≤ (n : ℤ)) →
      (l.map g).sum =
        ∑ k in Finset.range (n + 1), (l.count (k : ℤ) : ℚ) * g (k : ℤ) := by
  intro l
  induction l with
  | nil => intro _; simp
  | cons s l ih =>
    intro hb
    have hs := hb s (by simp)
    have ihl := ih (fun x hx => hb x (by simp [hx]))
    rw [List.map_cons, List.sum_cons, ihl]
    have hsplit : ∀ k ∈ Finset.range (n + 1),
        ((s :: l).count (k : ℤ) : ℚ) * g (k : ℤ) =
          (l.count (k : ℤ) : ℚ) * g (k : ℤ) +
            (if (k : ℤ) = s then g (k : ℤ) else 0) := by
      intro k _
      rw [List.count_cons]
      rcases em ((k : ℤ) = s) with he | he
      · subst he
        simp
        ring
      · have he2 : ¬ (s = (k : ℤ)) := fun h => he h.symm
        simp [he, he2]
    rw [Finset.sum_congr rfl hsplit, Finset.sum_add_distrib,
      sum_delta n s hs.1 hs.2 (fun k => g (k : ℤ))]
    have hnn : ((s.toNat : ℤ)) = s := Int.toNat_of_nonneg hs.1
    rw [hnn]
    ring


/-- Propositional form of `colA` at a natural column value. -/
lemma colA_iff (n : ℕ) (c : ℚ) (k : ℕ) :
    colA n c (k : ℤ) = true ↔ 2 * (k : ℚ) - (n : ℚ) > c := by
  simp [colA]

/-- Propositional form of `colD` at a natural column value. -/
lemma colD_iff (n : ℕ) (c : ℚ) (k : ℕ) :
    colD n c (k : ℤ) = true ↔
      (¬ (2 * (k : ℚ) - (n : ℚ) > c) ∧ (n : ℚ) - 2 * (k : ℚ) > c) := by
  simp [colD, colA]

/-- Propositional form of `colDis` at a natural column value. -/
lemma colDis_iff (n : ℕ) (c : ℚ) (k : ℕ) :
    colDis n c (k : ℤ) = true ↔
      (¬ (2 * (k : ℚ) - (n : ℚ) > c) ∧ ¬ ((n : ℚ) - 2 * (k : ℚ) > c)) := by
  simp [colDis, colA]

/-- The cast of `d_vector` is the rational distance from balance. -/
lemma d_vector_cast (n k : ℕ) :
    ((d_vector n k : ℤ) : ℚ) = |2 * (k : ℚ) - (n : ℚ)| := by
  rw [d_vector]
  push_cast
  rfl

/-- Per-column counting equals histogram counting: when every column sum
lies in `[0, n]` and the resolved threshold is nonnegative, the counters
of the `calculate_counters` loop coincide with the `BaseComparisons`
counters computed from the observed column-count histogram. -/
lemma counters_histogram_eq (l : List ℤ) (n : ℕ) (c : ℚ) (sch : WScheme)
    (hc : 0 ≤ c) (hb : ∀ s ∈ l, 0 ≤ s ∧ s ≤ (n : ℤ)) :
    calculate_countersScheme l n c sch =
      baseCounters (fun k => l.count (k : ℤ)) n c sch := by
  have ha : l.countP (colA n c) = baseSumA (fun k => l.count (k : ℤ)) n c := by
    rw [countP_hist n (colA n c) l hb]
    refine Finset.sum_congr rfl (fun k _ => ?_)
    rw [if_congr (colA_iff n c k) rfl rfl]
  have hd : l.countP (colD n c) = baseSumD (fun k => l.count (k : ℤ)) n c := by
    rw [countP_hist n (colD n c) l hb]
    refine Finset.sum_congr rfl (fun k _ => ?_)
    have hiff : colD n c (k : ℤ) = true ↔ (n : ℚ) - 2 * (k : ℚ) > c := by
      rw [colD_iff]
      constructor
      · exact fun h => h.2
      · exact fun h => ⟨by intro hh; linarith, h⟩
    rw [if_congr hiff rfl rfl]
  have hdis : l.countP (colDis n c) =
      baseSumDis (fun k => l.count (k : ℤ)) n c := by
    rw [countP_hist n (colDis n c) l hb]
    refine Finset.sum_congr rfl (fun k _ => ?_)
    have hiff : colDis n c (k : ℤ) = true ↔ ((d_vector n k : ℤ) : ℚ) ≤ c := by
      rw [colDis_iff, d_vector_cast, abs_le]
      constructor
      · intro ⟨hx, hy⟩
        constructor <;> linarith [not_lt.mp hx, not_lt.mp hy]
      · intro ⟨hx, hy⟩
        constructor <;> intro hh <;> linarith
    rw [if_congr hiff rfl rfl]
  have hwa : (l.map (wContribA n c sch)).sum =
      baseSumWA (fun k => l.count (k : ℤ)) n c sch := by
    rw [mapsum_hist n (wContribA n c sch) l hb]
    refine Finset.sum_congr rfl (fun k _ => ?_)
    by_cases h1 : 2 * (k : ℚ) - (n : ℚ) > c
    · have hca : colA n c (k : ℤ) = true := (colA_iff n c k).mpr h1
      have hda : d_vector n k = 2 * (k : ℤ) - (n : ℤ) := by
        rw [d_vector]
        apply abs_of_pos
        have h1z : ((0 : ℤ) : ℚ) < ((2 * (k : ℤ) - (n : ℤ) : ℤ) : ℚ) := by
          push_cast
          linarith [lt_of_le_of_lt hc h1]
        exact_mod_cast h1z
      have hbw : baseWeight n c sch k = f_s sch n (2 * (k : ℤ) - (n : ℤ)) := by
        rw [baseWeight, if_pos, hda]
        rw [d_vector_cast]
        calc c < 2 * (k : ℚ) - (n : ℚ) := h1
          _ ≤ |2 * (k : ℚ) - (n : ℚ)| := le_abs_self _
      rw [wContribA, hca, if_pos rfl, if_pos h1, hbw, mul_comm]
    · have hca : colA n c (k : ℤ) = false := by
        rw [Bool.eq_false_iff]
        intro hh
        exact h1 ((colA_iff n c k).mp hh)
      rw [wContribA, hca, if_neg (by simp), if_neg h1, mul_zero]
  have hwd : (l.map (wContribD n c sch)).sum =
      baseSumWD (fun k => l.count (k : ℤ)) n c sch := by
    rw [mapsum_hist n (wContribD n c sch) l hb]
    refine Finset.sum_congr rfl (fun k _ => ?_)
    by_cases h2 : (n : ℚ) - 2 * (k : ℚ) > c
    · have h1 : ¬ (2 * (k : ℚ) - (n : ℚ) > c) := by linarith
      have hcd : colD n c (k : ℤ) = true := (colD_iff n c k).mpr ⟨h1, h2⟩
      have hgt : ((d_vector n k : ℤ) : ℚ) > c := by
        rw [d_vector_cast]
        calc c < (n : ℚ) - 2 * (k : ℚ) := h2
          _ ≤ |2 * (k : ℚ) - (n : ℚ)| := by
              rw [abs_sub_comm]
              exact le_abs_self _
      have hbw : baseWeight n c sch k = f_s sch n (d_vector n k) := by
        rw [baseWeight, if_pos hgt]
      have habs : |2 * (k : ℤ) - (n : ℤ)| = d_vector n k := rfl
      rw [wContribD, hcd, if_pos rfl, if_pos h2, hbw, habs, mul_comm]
    · have hcd : colD n c (k : ℤ) = false := by
        rw [Bool.eq_false_iff]
        intro hh
        exact h2 ((colD_iff n c k).mp hh).2
      rw [wContribD, hcd, if_neg (by simp), if_neg h2, mul_zero]
  have hwdis : (l.map (wContribDis n c sch)).sum =
      baseSumWDis (fun k => l.count (k : ℤ)) n c sch := by
    rw [mapsum_hist n (wContribDis n c sch) l hb]
    refine Finset.sum_congr rfl (fun k _ => ?_)
    by_cases hle : ((d_vector n k : ℤ) : ℚ) ≤ c
    · have habs2 : |2 * (k : ℚ) - (n : ℚ)| ≤ c := by
        rw [← d_vector_cast]
        exact hle
      have h1 : ¬ (2 * (k : ℚ) - (n : ℚ) > c) :=
        not_lt.mpr (le_trans (le_abs_self _) habs2)
      have h2 : ¬ ((n : ℚ) - 2 * (k : ℚ) > c) := by
        apply not_lt.mpr
        calc (n : ℚ) - 2 * (k : ℚ) ≤ |2 * (k : ℚ) - (n : ℚ)| := by
              rw [abs_sub_comm]
              exact le_abs_self _
          _ ≤ c := habs2
      have hcd : colDis n c (k : ℤ) = true := (colDis_iff n c k).mpr ⟨h1, h2⟩
      have hbw : baseWeight n c sch k = f_d sch n (d_vector n k) := by
        rw [baseWeight, if_neg (not_lt.mpr hle)]
      have habs : |2 * (k : ℤ) - (n : ℤ)| = d_vector n k := rfl
      rw [wContribDis, hcd, if_pos rfl, if_pos hle, hbw, habs, mul_comm]
    · have hgt : c < ((d_vector n k : ℤ) : ℚ) := lt_of_not_le hle
      have hcd : colDis n c (k : ℤ) = false := by
        rw [Bool.eq_false_iff]
        intro hh
        obtain ⟨h1, h2⟩ := (colDis_iff n c k).mp hh
        rw [d_vector_cast] at hgt
        rcases abs_cases (2 * (k : ℚ) - (n : ℚ)) with ⟨he, _⟩ | ⟨he, _⟩
        · rw [he] at hgt
          exact h1 hgt
        · rw [he] at hgt
          exact h2 (by linarith)
      rw [wContribDis, hcd, if_neg (by simp), if_neg hle, mul_zero]
  unfold calculate_countersScheme
  rw [fold_counterStep n c sch l rawZero]
  unfold finalizeCounters baseCounters rawZero
  simp only [Counters.mk.injEq, zero_add]
  exact ⟨ha, hwa, hd, hwd, by rw [ha, hd], by rw [hwa, hwd], hdis, hwdis,
    by rw [ha, hd, hdis], by rw [hwa, hwd, hwdis]⟩

/-- `baseCounters` only reads the histogram on `0..n`. -/
lemma baseCounters_congr (n : ℕ) (c : ℚ) (sch : WScheme) (m1 m2 : ℕ → ℕ)
    (h : ∀ k, k ≤ n → m1 k = m2 k) :
    baseCounters m1 n c sch = baseCounters m2 n c sch := by
  have hr : ∀ k ∈ Finset.range (n + 1), m1 k = m2 k := fun k hk =>
    h k (by rw [Finset.mem_range] at hk; omega)
  have e1 : baseSumA m1 n c = baseSumA m2 n c := by
    unfold baseSumA
    exact Finset.sum_congr rfl (fun k hk => by rw [hr k hk])
  have e2 : baseSumD m1 n c = baseSumD m2 n c := by
    unfold baseSumD
    exact Finset.sum_congr rfl (fun k hk => by rw [hr k hk])
  have e3 : baseSumWA m1 n c sch = baseSumWA m2 n c sch := by
    unfold baseSumWA
    exact Finset.sum_congr rfl (fun k hk => by rw [hr k hk])
  have e4 : baseSumWD m1 n c sch = baseSumWD m2 n c sch := by
    unfold baseSumWD
    exact Finset.sum_congr rfl (fun k hk => by rw [hr k hk])
  have e5 : baseSumDis m1 n c = baseSumDis m2 n c := by
    unfold baseSumDis
    exact Finset.sum_congr rfl (fun k hk => by rw [hr k hk])
  have e6 : baseSumWDis m1 n c sch = baseSumWDis m2 n c sch := by
    unfold baseSumWDis
    exact Finset.sum_congr rfl (fun k hk => by rw [hr k hk])
  unfold baseCounters
  rw [e1, e2, e3, e4, e5, e6]

/-- C6 (amended): for every population `n ≥ 2`, nonnegative resolved
threshold and *resolved* weight scheme, the theoretical mode computes its
counters from the histogram `matches[k] = C(n,k)`, and this
histogram-based counting yields exactly the same counters as the
per-column counting rule applied to any observed aggregate whose
column-count histogram equals that binomial histogram — provided both
sides use the same resolved weight functions.  (Quantified over `w_factor`
strings the original claim fails: `base.py` resolves `power_k` to identity
weights while `calculate_counters` applies real power weights.) -/
theorem c6_theoretical_mode (n : ℕ) (c : ℚ) (sch : WScheme) (l : List ℤ)
    (_hn : 2 ≤ n) (hc : 0 ≤ c) (hb : ∀ s ∈ l, 0 ≤ s ∧ s ≤ (n : ℤ))
    (hh : ∀ k, k ≤ n → l.count (k : ℤ) = n.choose k) :
    calculate_countersScheme l n c sch = baseCounters (Nat.choose n) n c sch := by
  rw [counters_histogram_eq l n c sch hc hb]
  exact baseCounters_congr n c sch _ _ hh

/-- C6 counterexample: with `w_factor = "power_2"` and `n = 4`, an
aggregate whose histogram is exactly `C(4,k)` produces `w_a = 2` through
`calculate_counters` (real power weights) but `w_a = 5` through the
`BaseComparisons` theoretical mode (which resolves `power_2` to identity
weights), so the claim quantified over every weight scheme is false. -/
theorem c6_counterexample :
    (∀ k : ℕ, k ≤ 4 →
      ([0, 1, 1, 1, 1, 2, 2, 2, 2, 2, 2, 3, 3, 3, 3, 4] : List ℤ).count (k : ℤ) =
        Nat.choose 4 k) ∧
    resolve_w_ecs (some "power_2") = .ok (.power 2) ∧
    resolve_w_base (some "power_2") = .ok .identity ∧
    (calculate_countersScheme [0, 1, 1, 1, 1, 2, 2, 2, 2, 2, 2, 3, 3, 3, 3, 4]
        4 0 (.power 2)).w_a = 2 ∧
    (baseCounters (Nat.choose 4) 4 0 .identity).w_a = 5 := by
  refine ⟨by decide, by decide, by decide, ?_, ?_⟩
  · show ((([0, 1, 1, 1, 1, 2, 2, 2, 2, 2, 2, 3, 3, 3, 3, 4] : List ℤ).foldl
      (counterStep 4 0 (.power 2)) rawZero)).w_a = 2
    norm_num [List.foldl, counterStep, f_s, f_d, rawZero]
  · show baseSumWA (Nat.choose 4) 4 0 .identity = 5
    rw [baseSumWA]
    rw [Finset.sum_range_succ, Finset.sum_range_succ, Finset.sum_range_succ,
      Finset.sum_range_succ, Finset.sum_range_succ, Finset.sum_range_zero]
    norm_num [baseWeight, d_vector, f_s, f_d]

/-- C6 witness: the amended equivalence applied at `n = 2`, threshold `0`,
fraction weights, and the aggregate `[0, 1, 1, 2]` whose histogram is
`C(2,k) = [1, 2, 1]`. -/
theorem c6_theoretical_mode_witness :
    (2 ≤ 2 ∧ (0 : ℚ) ≤ 0 ∧
        (∀ s ∈ ([0, 1, 1, 2] : List ℤ), 0 ≤ s ∧ s ≤ (2 : ℤ)) ∧
        (∀ k : ℕ, k ≤ 2 → ([0, 1, 1, 2] : List ℤ).count (k : ℤ) = Nat.choose 2 k)) ∧
      calculate_countersScheme [0, 1, 1, 2] 2 0 .fraction =
        baseCounters (Nat.choose 2) 2 0 .fraction :=
  ⟨⟨le_refl 2, le_refl 0, by decide, by decide⟩,
    c6_theoretical_mode 2 0 .fraction [0, 1, 1, 2] (le_refl 2) (le_refl 0)
      (by decide) (by decide)⟩

/-- The analytic primitives the index formulas use (`np.arcsin`,
`np.sqrt`, `math.log`, `np.pi`), supplied abstractly so the catalog is a
pure field computation; instantiating `V = ℝ` with the real functions
gives the floating-point formulas' exact-arithmetic meaning, while any
computable instance keeps the catalog executable. -/
structure AnalyticOps (V : Type) where
  sqrtv : V → V
  asinv : V → V
  logv : V → V
  piv : V

/-- One 16-entry family of named similarity indices, as keyed in the
dictionary literal of `gen_sim_dict`. -/
structure IndexSet (V : Type) where
  AC : V
  BUB : V
  CT1 : V
  CT2 : V
  CT3 : V
  CT4 : V
  Fai : V
  Gle : V
  Ja0 : V
  Ja : V
  JT : V
  RT : V
  RR : V
  SM : V
  SS1 : V
  SS2 : V

/-- The two-level dictionary `{'nw': {...}, 'w': {...}}` returned by
`gen_sim_dict`. -/
structure SimDict (V : Type) where
  nw : IndexSet V
  w : IndexSet V

/-- The 32 index formulas of `gen_sim_dict` (`ECS_MeDiv.py`, lines
131-232), transcribed term by term; note the `nw` family keeps weighted
numerators over unweighted denominators exactly as the source does. -/
def mkIndices {V : Type} [Field V] (ops : AnalyticOps V) (c : Counters) :
    SimDict V :=
  { w :=
    { AC := (2 / ops.piv) *
        ops.asinv (ops.sqrtv ((c.total_w_sim : V) / (c.w_p : V))),
      BUB := (ops.sqrtv ((c.w_a : V) * (c.w_d : V)) + (c.w_a : V)) /
        (ops.sqrtv ((c.w_a : V) * (c.w_d : V)) + (c.w_a : V) + (c.total_w_dis : V)),
      CT1 := ops.logv (1 + (c.w_a : V) + (c.w_d : V)) / ops.logv (1 + (c.w_p : V)),
      CT2 := (ops.logv (1 + (c.w_p : V)) - ops.logv (1 + (c.total_w_dis : V))) /
        ops.logv (1 + (c.w_p : V)),
      CT3 := ops.logv (1 + (c.w_a : V)) / ops.logv (1 + (c.w_p : V)),
      CT4 := ops.logv (1 + (c.w_a : V)) /
        ops.logv (1 + (c.w_a : V) + (c.total_w_dis : V)),
      Fai := ((c.w_a : V) + (1 / 2) * (c.w_d : V)) / (c.w_p : V),
      Gle := (2 * (c.w_a : V)) / (2 * (c.w_a : V) + (c.total_w_dis : V)),
      Ja := (3 * (c.w_a : V)) / (3 * (c.w_a : V) + (c.total_w_dis : V)),
      Ja0 := (3 * (c.total_w_sim : V)) /
        (3 * (c.total_w_sim : V) + (c.total_w_dis : V)),
      JT := (c.w_a : V) / ((c.w_a : V) + (c.total_w_dis : V)),
      RT := (c.total_w_sim : V) / ((c.w_p : V) + (c.total_w_dis : V)),
      RR := (c.w_a : V) / (c.w_p : V),
      SM := (c.total_w_sim : V) / (c.w_p : V),
      SS1 := (c.w_a : V) / ((c.w_a : V) + 2 * (c.total_w_dis : V)),
      SS2 := (2 * (c.total_w_sim : V)) / ((c.w_p : V) + (c.total_w_sim : V)) },
    nw :=
    { AC := (2 / ops.piv) *
        ops.asinv (ops.sqrtv ((c.total_w_sim : V) / (c.p : V))),
      BUB := (ops.sqrtv ((c.w_a : V) * (c.w_d : V)) + (c.w_a : V)) /
        (ops.sqrtv ((c.a : V) * (c.d : V)) + (c.a : V) + (c.total_dis : V)),
      CT1 := ops.logv (1 + (c.w_a : V) + (c.w_d : V)) / ops.logv (1 + (c.p : V)),
      CT2 := (ops.logv (1 + (c.w_p : V)) - ops.logv (1 + (c.total_w_dis : V))) /
        ops.logv (1 + (c.p : V)),
      CT3 := ops.logv (1 + (c.w_a : V)) / ops.logv (1 + (c.p : V)),
      CT4 := ops.logv (1 + (c.w_a : V)) /
        ops.logv (1 + (c.a : V) + (c.total_dis : V)),
      Fai := ((c.w_a : V) + (1 / 2) * (c.w_d : V)) / (c.p : V),
      Gle := (2 * (c.w_a : V)) / (2 * (c.a : V) + (c.total_dis : V)),
      Ja := (3 * (c.w_a : V)) / (3 * (c.a : V) + (c.total_dis : V)),
      Ja0 := (3 * (c.total_w_sim : V)) /
        (3 * (c.total_sim : V) + (c.total_dis : V)),
      JT := (c.w_a : V) / ((c.a : V) + (c.total_dis : V)),
      RT := (c.total_w_sim : V) / ((c.p : V) + (c.total_dis : V)),
      RR := (c.w_a : V) / (c.p : V),
      SM := (c.total_w_sim : V) / (c.p : V),
      SS1 := (c.w_a : V) / ((c.a : V) + 2 * (c.total_dis : V)),
      SS2 := (2 * (c.total_w_sim : V)) / ((c.p : V) + (c.total_sim : V)) } }

/-- The 16 index names of the `n_arys` list. -/
inductive IndexName
  | AC | BUB | CT1 | CT2 | CT3 | CT4 | Fai | Gle | Ja0 | Ja | JT | RT | RR
  | SM | SS1 | SS2
deriving DecidableEq

/-- The `'w'` / `'nw'` dictionary level. -/
inductive WeightMode
  | w
  | nw
deriving DecidableEq

/-- `Indices[weight][n_ary]`: look one scalar up in the dictionary. -/
def getIdx {V : Type} (dict : SimDict V) (wt : WeightMode) (nary : IndexName) :
    V :=
  let fam := match wt with
    | .w => dict.w
    | .nw => dict.nw
  match nary with
  | .AC => fam.AC
  | .BUB => fam.BUB
  | .CT1 => fam.CT1
  | .CT2 => fam.CT2
  | .CT3 => fam.CT3
  | .CT4 => fam.CT4
  | .Fai => fam.Fai
  | .Gle => fam.Gle
  | .Ja0 => fam.Ja0
  | .Ja => fam.Ja
  | .JT => fam.JT
  | .RT => fam.RT
  | .RR => fam.RR
  | .SM => fam.SM
  | .SS1 => fam.SS1
  | .SS2 => fam.SS2

/-- `calculate_counters` in full (`ECS_MeDiv.py`, lines 9-121): the
`data_sets` rows are summed element-wise, the last entry of the total is
the population size `n` and the rest are the column sums; then threshold
and weight-scheme resolution run before the counting loop.  (Python's
`int(...)` on a negative population is clamped by `toNat` here; the
algorithm never produces negative populations.) -/
def calculate_counters (data_sets : List (List ℤ)) (cIn : CInput)
    (w : Option String) : Except PyErr Counters :=
  match resolve_c_ecs ((sumRows data_sets).getLastD 0).toNat cIn with
  | .error e => .error e
  | .ok c =>
    match resolve_w_ecs w with
    | .error e => .error e
    | .ok sch =>
      .ok (calculate_countersScheme (sumRows data_sets).dropLast
        ((sumRows data_sets).getLastD 0).toNat c sch)

/-- `gen_sim_dict` (`ECS_MeDiv.py`, lines 123-233): it forwards
`c_threshold` but calls `calculate_counters` with the hard-coded
`w_factor="fraction"`, ignoring its own `w_factor` argument, then fills
the two-level index dictionary from the counters. -/
def gen_sim_dict {V : Type} [Field V] (ops : AnalyticOps V)
    (data_sets : List (List ℤ)) (cIn : CInput)
    (_w_factor : Option String) : Except PyErr (SimDict V) :=
  (calculate_counters data_sets cIn (some "fraction")).map (mkIndices ops)

/-- C9: for every data set and threshold and any two values `w1`, `w2` of
the `w_factor` argument, `gen_sim_dict` returns identical index
dictionaries: its `w_factor` argument has no effect, because the counters
are always computed with the fraction weight scheme. -/
theorem c9_gen_sim_dict_ignores_w_factor {V : Type} [Field V]
    (ops : AnalyticOps V) (data_sets : List (List ℤ)) (cIn : CInput)
    (w1 w2 : Option String) :
    gen_sim_dict ops data_sets cIn w1 = gen_sim_dict ops data_sets cIn w2 ∧
      gen_sim_dict ops data_sets cIn w1 =
        (calculate_counters data_sets cIn (some "fraction")).map
          (mkIndices ops) :=
  ⟨rfl, rfl⟩

/-- The running-minimum loop shared by `calculate_medoid`,
`get_single_index` and `get_new_index_n`: walk the index list, replacing
the carried index whenever the key of the current element compares
strictly below the carried minimum. -/
def selGo {V : Type} [LinearOrder V] (key : ℕ → V) :
    List ℕ → ℕ → V → ℕ
  | [], i0, _ => i0
  | x :: xs, i0, m0 =>
    if key x < m0 then selGo key xs x (key x) else selGo key xs i0 m0

/-- The running-maximum loop of `calculate_outlier`. -/
def selGoGt {V : Type} [LinearOrder V] (key : ℕ → V) :
    List ℕ → ℕ → V → ℕ
  | [], i0, _ => i0
  | x :: xs, i0, m0 =>
    if key x > m0 then selGoGt key xs x (key x) else selGoGt key xs i0 m0

/-- If no key beats the initial bound, the loop returns its initial
index unchanged. -/
lemma selGo_none {V : Type} [LinearOrder V] (key : ℕ → V) :
    ∀ (l : List ℕ) (i0 : ℕ) (m0 : V),
      (∀ y ∈ l, ¬ key y < m0) → selGo key l i0 m0 = i0 := by
  intro l
  induction l with
  | nil => intro i0 m0 _; rfl
  | cons x xs ih =>
    intro i0 m0 h
    rw [selGo, if_neg (h x (by simp))]
    exact ih i0 m0 (fun y hy => h y (by simp [hy]))

/-- If no key exceeds the initial bound, the max loop returns its
initial index unchanged. -/
lemma selGoGt_none {V : Type} [LinearOrder V] (key : ℕ → V) :
    ∀ (l : List ℕ) (i0 : ℕ) (m0 : V),
      (∀ y ∈ l, ¬ key y > m0) → selGoGt key l i0 m0 = i0 := by
  intro l
  induction l with
  | nil => intro i0 m0 _; rfl
  | cons x xs ih =>
    intro i0 m0 h
    rw [selGoGt, if_neg (h x (by simp))]
    exact ih i0 m0 (fun y hy => h y (by simp [hy]))

/-- The loop result is either the initial index or a list member. -/
lemma selGo_mem_self {V : Type} [LinearOrder V] (key : ℕ → V) :
    ∀ (l : List ℕ) (i0 : ℕ) (m0 : V),
      selGo key l i0 m0 = i0 ∨ selGo key l i0 m0 ∈ l := by
  intro l
  induction l with
  | nil => intro i0 m0; exact Or.inl rfl
  | cons x xs ih =>
    intro i0 m0
    rw [selGo]
    by_cases hx : key x < m0
    · rw [if_pos hx]
      rcases ih x (key x) with h | h
      · exact Or.inr (by simp [h])
      · exact Or.inr (by simp [h])
    · rw [if_neg hx]
      rcases ih i0 m0 with h | h
      · exact Or.inl h
      · exact Or.inr (by simp [h])

/-- Same for the max loop. -/
lemma selGoGt_mem_self {V : Type} [LinearOrder V] (key : ℕ → V) :
    ∀ (l : List ℕ) (i0 : ℕ) (m0 : V),
      selGoGt key l i0 m0 = i0 ∨ selGoGt key l i0 m0 ∈ l := by
  intro l
  induction l with
  | nil => intro i0 m0; exact Or.inl rfl
  | cons x xs ih =>
    intro i0 m0
    rw [selGoGt]
    by_cases hx : key x > m0
    · rw [if_pos hx]
      rcases ih x (key x) with h | h
      · exact Or.inr (by simp [h])
      · exact Or.inr (by simp [h])
    · rw [if_neg hx]
      rcases ih i0 m0 with h | h
      · exact Or.inl h
      · exact Or.inr (by simp [h])

/-- If some key beats the bound, the loop returns a list member. -/
lemma selGo_mem_of_exists {V : Type} [LinearOrder V] (key : ℕ → V) :
    ∀ (l : List ℕ) (i0 : ℕ) (m0 : V),
      (∃ y ∈ l, key y < m0) → selGo key l i0 m0 ∈ l := by
  intro l
  induction l with
  | nil => intro i0 m0 ⟨y, hy, _⟩; exact absurd hy (by simp)
  | cons x xs ih =>
    intro i0 m0 ⟨y, hy, hky⟩
    rw [selGo]
    by_cases hx : key x < m0
    · rw [if_pos hx]
      rcases selGo_mem_self key xs x (key x) with h | h
      · simp [h]
      · simp [h]
    · rw [if_neg hx]
      have hyxs : y ∈ xs := by
        rcases List.mem_cons.mp hy with h | h
        · exact absurd (h ▸ hky) hx
        · exact h
      exact List.mem_cons_of_mem x (ih i0 m0 ⟨y, hyxs, hky⟩)

/-- If some key exceeds the bound, the max loop returns a list member. -/
lemma selGoGt_mem_of_exists {V : Type} [LinearOrder V] (key : ℕ → V) :
    ∀ (l : List ℕ) (i0 : ℕ) (m0 : V),
      (∃ y ∈ l, key y > m0) → selGoGt key l i0 m0 ∈ l := by
  intro l
  induction l with
  | nil => intro i0 m0 ⟨y, hy, _⟩; exact absurd hy (by simp)
  | cons x xs ih =>
    intro i0 m0 ⟨y, hy, hky⟩
    rw [selGoGt]
    by_cases hx : key x > m0
    · rw [if_pos hx]
      rcases selGoGt_mem_self key xs x (key x) with h | h
      · simp [h]
      · simp [h]
    · rw [if_neg hx]
      have hyxs : y ∈ xs := by
        rcases List.mem_cons.mp hy with h | h
        · exact absurd (h ▸ hky) hx
        · exact h
      exact List.mem_cons_of_mem x (ih i0 m0 ⟨y, hyxs, hky⟩)

/-- `zipWith (+)` against a zero vector of the right length is the
identity. -/
lemma zipWith_zero_add (r : List ℤ) :
    List.zipWith (· + ·) (List.replicate r.length 0) r = r := by
  induction r with
  | nil => rfl
  | cons x xs ih => simp [List.replicate_succ, ih]

/-- `np.sum` over a one-element list of rows is that row. -/
lemma sumRows_singleton (r : List ℤ) : sumRows [r] = r := by
  unfold sumRows
  simp [zipWith_zero_add r]

/-- Helper: the unset threshold resolves to `n % 2` for `n ≥ 2`. -/
lemma resolve_c_ecs_none (n : ℕ) (hn : 2 ≤ n) :
    resolve_c_ecs n .noneV = .ok (((n : ℤ) % 2 : ℤ) : ℚ) := by
  have hmod : ¬ ((n : ℤ) % 2 ≥ (n : ℤ)) := by
    have h0 : (n : ℤ) % 2 < 2 := Int.emod_lt_of_pos _ (by norm_num)
    omega
  simp [resolve_c_ecs, pyTruthy, hmod]

/-- On a single pre-aggregated row `agg ++ [n]` with default threshold,
`gen_sim_dict` succeeds and computes the catalog from the fraction-weight
counters at threshold `n % 2`. -/
lemma gen_sim_dict_ok {V : Type} [Field V] (ops : AnalyticOps V)
    (agg : List ℤ) (n : ℕ) (hn : 2 ≤ n) (wf : Option String) :
    gen_sim_dict ops [agg ++ [(n : ℤ)]] .noneV wf =
      .ok (mkIndices ops
        (calculate_countersScheme agg n (((n : ℤ) % 2 : ℤ) : ℚ) .fraction)) := by
  have hfr : resolve_w_ecs (some "fraction") = .ok .fraction := by decide
  unfold gen_sim_dict calculate_counters
  rw [sumRows_singleton]
  have h2 : (agg ++ [(n : ℤ)]).getLastD 0 = (n : ℤ) := by simp
  have h3 : (agg ++ [(n : ℤ)]).dropLast = agg := by simp
  rw [h2, h3]
  have h4 : ((n : ℤ)).toNat = n := Int.toNat_natCast n
  rw [h4, resolve_c_ecs_none n hn, hfr]
  rfl

/-- The leave-one-out aggregate of `calculate_medoid` /
`calculate_outlier`: total column sums minus fingerprint `i`. -/
def looSum (total_data : List (List ℤ)) (i : ℕ) : List ℤ :=
  List.zipWith (· - ·) (sumRows total_data) (total_data.getD i [])

/-- The scalar a medoid/outlier iteration compares: the chosen index of
the leave-one-out counters at population `N - 1`, fraction weights,
default threshold `(N - 1) % 2`. -/
def looValue {V : Type} [Field V] (ops : AnalyticOps V) (nary : IndexName)
    (wt : WeightMode) (total_data : List (List ℤ)) (i : ℕ) : V :=
  getIdx
    (mkIndices ops
      (calculate_countersScheme (looSum total_data i) (total_data.length - 1)
        ((((total_data.length - 1 : ℕ) : ℤ) % 2 : ℤ) : ℚ) .fraction))
    wt nary

/-- The loop of `calculate_medoid`, evaluating each candidate's index
dictionary in turn (an evaluation error propagates like the Python
exception). -/
def medoidGo {V : Type} [LinearOrder V] (val : ℕ → Except PyErr V) :
    List ℕ → ℕ → V → Except PyErr ℕ
  | [], idx, _ => .ok idx
  | i :: rest, idx, minSim =>
    match val i with
    | .error e => .error e
    | .ok v =>
      if v < minSim then medoidGo val rest i v else medoidGo val rest idx minSim

/-- The loop of `calculate_outlier`. -/
def outlierGo {V : Type} [LinearOrder V] (val : ℕ → Except PyErr V) :
    List ℕ → ℕ → V → Except PyErr ℕ
  | [], idx, _ => .ok idx
  | i :: rest, idx, maxSim =>
    match val i with
    | .error e => .error e
    | .ok v =>
      if v > maxSim then outlierGo val rest i v else outlierGo val rest idx maxSim

/-- `calculate_medoid` (`ECS_MeDiv.py`, lines 235-250): start from the
placeholder `len(total_data[0]) + 1` and `min_sim = 3.08`; for each `i`,
build the leave-one-out aggregate with population `N - 1`, evaluate the
chosen index through `gen_sim_dict`, and keep the index of the strictly
smallest value seen. -/
def calculate_medoid {V : Type} [LinearOrderedField V] (ops : AnalyticOps V)
    (nary : IndexName) (wt : WeightMode) (total_data : List (List ℤ)) :
    Except PyErr ℕ :=
  medoidGo
    (fun i =>
      (gen_sim_dict ops [looSum total_data i ++ [(total_data.length : ℤ) - 1]]
          .noneV (some "fraction")).map
        (fun dict => getIdx dict wt nary))
    (List.range total_data.length) ((total_data.headD []).length + 1)
    (308 / 100)

/-- `calculate_outlier` (`ECS_MeDiv.py`, lines 252-267): the same loop
keeping the strictly largest value, starting from `max_sim = -3.08`. -/
def calculate_outlier {V : Type} [LinearOrderedField V] (ops : AnalyticOps V)
    (nary : IndexName) (wt : WeightMode) (total_data : List (List ℤ)) :
    Except PyErr ℕ :=
  outlierGo
    (fun i =>
      (gen_sim_dict ops [looSum total_data i ++ [(total_data.length : ℤ) - 1]]
          .noneV (some "fraction")).map
        (fun dict => getIdx dict wt nary))
    (List.range total_data.length) ((total_data.headD []).length + 1)
    (-(308 / 100))

/-- When every candidate evaluates cleanly, the medoid loop is the pure
running-minimum loop. -/
lemma medoidGo_ok {V : Type} [LinearOrder V] (val : ℕ → Except PyErr V)
    (g : ℕ → V) :
    ∀ (l : List ℕ) (i0 : ℕ) (m0 : V), (∀ i ∈ l, val i = .ok (g i)) →
      medoidGo val l i0 m0 = .ok (selGo g l i0 m0) := by
  intro l
  induction l with
  | nil => intro i0 m0 _; rfl
  | cons x xs ih =>
    intro i0 m0 h
    rw [medoidGo, selGo, h x (by simp)]
    dsimp only
    by_cases hx : g x < m0
    · rw [if_pos hx, if_pos hx]
      exact ih x (g x) (fun i hi => h i (by simp [hi]))
    · rw [if_neg hx, if_neg hx]
      exact ih i0 m0 (fun i hi => h i (by simp [hi]))

/-- Same for the outlier loop. -/
lemma outlierGo_ok {V : Type} [LinearOrder V] (val : ℕ → Except PyErr V)
    (g : ℕ → V) :
    ∀ (l : List ℕ) (i0 : ℕ) (m0 : V), (∀ i ∈ l, val i = .ok (g i)) →
      outlierGo val l i0 m0 = .ok (selGoGt g l i0 m0) := by
  intro l
  induction l with
  | nil => intro i0 m0 _; rfl
  | cons x xs ih =>
    intro i0 m0 h
    rw [outlierGo, selGoGt, h x (by simp)]
    dsimp only
    by_cases hx : g x > m0
    · rw [if_pos hx, if_pos hx]
      exact ih x (g x) (fun i hi => h i (by simp [hi]))
    · rw [if_neg hx, if_neg hx]
      exact ih i0 m0 (fun i hi => h i (by simp [hi]))

/-- On a collection of at least 3 fingerprints every leave-one-out
evaluation succeeds, so `calculate_medoid` is the pure running-minimum
over `looValue`. -/
lemma calculate_medoid_eval {V : Type} [LinearOrderedField V]
    (ops : AnalyticOps V) (nary : IndexName) (wt : WeightMode)
    (total_data : List (List ℤ)) (hN : 3 ≤ total_data.length) :
    calculate_medoid ops nary wt total_data =
      .ok (selGo (looValue ops nary wt total_data)
        (List.range total_data.length) ((total_data.headD []).length + 1)
        (308 / 100)) := by
  unfold calculate_medoid
  apply medoidGo_ok
  intro i _
  have hcast : (total_data.length : ℤ) - 1 =
      ((total_data.length - 1 : ℕ) : ℤ) := by omega
  rw [hcast, gen_sim_dict_ok ops (looSum total_data i) (total_data.length - 1)
    (by omega) (some "fraction")]
  rfl

/-- Same reduction for `calculate_outlier`. -/
lemma calculate_outlier_eval {V : Type} [LinearOrderedField V]
    (ops : AnalyticOps V) (nary : IndexName) (wt : WeightMode)
    (total_data : List (List ℤ)) (hN : 3 ≤ total_data.length) :
    calculate_outlier ops nary wt total_data =
      .ok (selGoGt (looValue ops nary wt total_data)
        (List.range total_data.length) ((total_data.headD []).length + 1)
        (-(308 / 100))) := by
  unfold calculate_outlier
  apply outlierGo_ok
  intro i _
  have hcast : (total_data.length : ℤ) - 1 =
      ((total_data.length - 1 : ℕ) : ℤ) := by omega
  rw [hcast, gen_sim_dict_ok ops (looSum total_data i) (total_data.length - 1)
    (by omega) (some "fraction")]
  rfl

/-- Concrete analytic-ops instance on `ℚ` (the transcendental entries are
never read by the rational-only indices such as `RR`). -/
def ratOps : AnalyticOps ℚ := ⟨fun _ => 0, fun _ => 0, fun _ => 0, 1⟩

/-- A concrete analytic-ops instance whose `arcsin` is the constant
`-10`, making the `AC` index evaluate to `-20` everywhere. -/
def negAsinOps : AnalyticOps ℚ := ⟨fun _ => 0, fun _ => -10, fun _ => 0, 1⟩

/-- Every leave-one-out `RR` value of the non-binary collection
`[[100], [100], [100]]` is `199`, far above the `3.08` bound. -/
lemma looValue_big (i : ℕ) (hi : i < 3) :
    looValue (V := ℚ) ratOps .RR .nw [[100], [100], [100]] i = 199 := by
  interval_cases i <;>
    norm_num [looValue, looSum, sumRows, List.foldl, List.zipWith,
      calculate_countersScheme, counterStep, finalizeCounters, rawZero, f_s,
      f_d, mkIndices, getIdx, Rat.cast_id]

/-- C10 counterexample: on the collection `[[100], [100], [100]]` no
leave-one-out similarity compares strictly below `3.08`, yet
`calculate_medoid` returns `2 = len(collection[0]) + 1`, which *is* a
valid index of this 3-element collection — so an in-range return does not
certify the precondition, and the placeholder is not always out of
range. -/
theorem c10_counterexample :
    (∀ i < 3,
      ¬ looValue (V := ℚ) ratOps .RR .nw [[100], [100], [100]] i < 308 / 100) ∧
    calculate_medoid (V := ℚ) ratOps .RR .nw [[100], [100], [100]] = .ok 2 ∧
    2 < ([[100], [100], [100]] : List (List ℤ)).length := by
  refine ⟨fun i hi => by rw [looValue_big i hi]; norm_num, ?_, by norm_num⟩
  rw [calculate_medoid_eval ratOps .RR .nw [[100], [100], [100]] (by norm_num)]
  have hplace : (([[100], [100], [100]] : List (List ℤ)).headD []).length + 1 = 2 := by
    norm_num
  have hnone := selGo_none (looValue (V := ℚ) ratOps .RR .nw [[100], [100], [100]])
    (List.range ([[100], [100], [100]] : List (List ℤ)).length)
    ((([[100], [100], [100]] : List (List ℤ)).headD []).length + 1) (308 / 100)
    (fun y hy => by
      rw [looValue_big y (by simpa using List.mem_range.mp hy)]
      norm_num)
  rw [hnone, hplace]

/-- C10 (amended): on a collection of at least 3 fingerprints,
`calculate_medoid` returns an index of the collection whenever at least
one leave-one-out similarity value compares strictly below `3.08`, and
returns the placeholder `len(collection[0]) + 1` (fingerprint length plus
one) when no candidate satisfies that comparison; symmetrically
`calculate_outlier` with the comparison strictly above `-3.08`.  The
placeholder is not a valid collection index only when the collection has
at most `len(collection[0]) + 1` members; for larger collections it can
collide with a valid index (see the counterexample). -/
theorem c10_medoid_outlier_range {V : Type} [LinearOrderedField V]
    (ops : AnalyticOps V) (nary : IndexName) (wt : WeightMode)
    (td : List (List ℤ)) (hN : 3 ≤ td.length) :
    ((∀ i < td.length, ¬ looValue ops nary wt td i < 308 / 100) →
        calculate_medoid ops nary wt td = .ok ((td.headD []).length + 1)) ∧
    ((∃ i < td.length, looValue ops nary wt td i < 308 / 100) →
        ∃ j < td.length, calculate_medoid ops nary wt td = .ok j) ∧
    ((∀ i < td.length, ¬ looValue ops nary wt td i > -(308 / 100)) →
        calculate_outlier ops nary wt td = .ok ((td.headD []).length + 1)) ∧
    ((∃ i < td.length, looValue ops nary wt td i > -(308 / 100)) →
        ∃ j < td.length, calculate_outlier ops nary wt td = .ok j) := by
  refine ⟨?_, ?_, ?_, ?_⟩
  · intro h
    rw [calculate_medoid_eval ops nary wt td hN]
    rw [selGo_none _ _ _ _ (fun y hy => h y (List.mem_range.mp hy))]
  · intro ⟨i, hi, hlt⟩
    rw [calculate_medoid_eval ops nary wt td hN]
    have hmem := selGo_mem_of_exists (looValue ops nary wt td)
      (List.range td.length) ((td.headD []).length + 1) (308 / 100)
      ⟨i, List.mem_range.mpr hi, hlt⟩
    exact ⟨_, List.mem_range.mp hmem, rfl⟩
  · intro h
    rw [calculate_outlier_eval ops nary wt td hN]
    rw [selGoGt_none _ _ _ _ (fun y hy => h y (List.mem_range.mp hy))]
  · intro ⟨i, hi, hgt⟩
    rw [calculate_outlier_eval ops nary wt td hN]
    have hmem := selGoGt_mem_of_exists (looValue ops nary wt td)
      (List.range td.length) ((td.headD []).length + 1) (-(308 / 100))
      ⟨i, List.mem_range.mpr hi, hgt⟩
    exact ⟨_, List.mem_range.mp hmem, rfl⟩

/-- The leave-one-out `RR` value of `[[1], [0], [0]]` at index 0 is 0. -/
lemma looValue_small0 :
    looValue (V := ℚ) ratOps .RR .nw [[1], [0], [0]] 0 = 0 := by
  norm_num [looValue, looSum, sumRows, List.foldl, List.zipWith,
    calculate_countersScheme, counterStep, finalizeCounters, rawZero, f_s, f_d,
    mkIndices, getIdx, Rat.cast_id]

/-- With a constant `arcsin = -10`, every `AC` value is `-20`. -/
lemma looValue_negAC (i : ℕ) :
    looValue (V := ℚ) negAsinOps .AC .nw [[1], [0], [0]] i = -20 := by
  norm_num [looValue, negAsinOps, mkIndices, getIdx]

/-- C10 witness: all four branches of the amended theorem applied at
concrete collections — medoid placeholder on `[[100], [100], [100]]`,
in-range medoid and outlier on `[[1], [0], [0]]`, and outlier placeholder
under the constant-`arcsin` instance. -/
theorem c10_medoid_outlier_range_witness :
    calculate_medoid (V := ℚ) ratOps .RR .nw [[100], [100], [100]] = .ok 2 ∧
    (∃ j < 3, calculate_medoid (V := ℚ) ratOps .RR .nw [[1], [0], [0]] = .ok j) ∧
    calculate_outlier (V := ℚ) negAsinOps .AC .nw [[1], [0], [0]] = .ok 2 ∧
    (∃ j < 3, calculate_outlier (V := ℚ) ratOps .RR .nw [[1], [0], [0]] = .ok j) := by
  refine ⟨?_, ?_, ?_, ?_⟩
  · have h := (c10_medoid_outlier_range (V := ℚ) ratOps .RR .nw
      [[100], [100], [100]] (by norm_num)).1
    have h2 := h (fun i hi => by
      rw [looValue_big i (by simpa using hi)]
      norm_num)
    simpa using h2
  · have h := (c10_medoid_outlier_range (V := ℚ) ratOps .RR .nw
      [[1], [0], [0]] (by norm_num)).2.1
    have h2 := h ⟨0, by norm_num, by rw [looValue_small0]; norm_num⟩
    simpa using h2
  · have h := (c10_medoid_outlier_range (V := ℚ) negAsinOps .AC .nw
      [[1], [0], [0]] (by norm_num)).2.2.1
    have h2 := h (fun i _ => by
      rw [looValue_negAC i]
      norm_num)
    simpa using h2
  · have h := (c10_medoid_outlier_range (V := ℚ) ratOps .RR .nw
      [[1], [0], [0]] (by norm_num)).2.2.2
    have h2 := h ⟨0, by norm_num, by rw [looValue_small0]; norm_num⟩
    simpa using h2

/-- First-argmin characterization of the running-minimum loop, under the
invariant that the carried bound is the key of the carried index: the
result is the initial index (when nothing beats it) or the first element
attaining the minimum (strictly better than everything before it, at
least as good as everything after). -/
lemma selGo_argmin {V : Type} [LinearOrder V] (key : ℕ → V) :
    ∀ (l : List ℕ) (i0 : ℕ),
      (selGo key l i0 (key i0) = i0 ∧ ∀ y ∈ l, key i0 ≤ key y) ∨
      (∃ l1 l2, l = l1 ++ selGo key l i0 (key i0) :: l2 ∧
        key (selGo key l i0 (key i0)) < key i0 ∧
        (∀ y ∈ l1, key (selGo key l i0 (key i0)) < key y) ∧
        (∀ y ∈ l2, key (selGo key l i0 (key i0)) ≤ key y)) := by
  intro l
  induction l with
  | nil => intro i0; exact Or.inl ⟨rfl, by simp⟩
  | cons x xs ih =>
    intro i0
    by_cases hx : key x < key i0
    · have hsel : selGo key (x :: xs) i0 (key i0) = selGo key xs x (key x) := by
        rw [selGo, if_pos hx]
      rw [hsel]
      rcases ih x with ⟨ha, hb⟩ | ⟨l1, l2, he, hlt, h1, h2⟩
      · right
        refine ⟨[], xs, ?_, ?_, by simp, ?_⟩
        · rw [ha]
          rfl
        · rw [ha]
          exact hx
        · intro y hy
          rw [ha]
          exact hb y hy
      · right
        refine ⟨x :: l1, l2, by rw [List.cons_append, ← he], lt_trans hlt hx,
          ?_, h2⟩
        intro y hy
        rcases List.mem_cons.mp hy with rfl | hy2
        · exact hlt
        · exact h1 y hy2
    · have hsel : selGo key (x :: xs) i0 (key i0) = selGo key xs i0 (key i0) := by
        rw [selGo, if_neg hx]
      rw [hsel]
      rcases ih i0 with ⟨ha, hb⟩ | ⟨l1, l2, he, hlt, h1, h2⟩
      · left
        refine ⟨ha, ?_⟩
        intro y hy
        rcases List.mem_cons.mp hy with rfl | hy2
        · exact le_of_not_lt hx
        · exact hb y hy2
      · right
        refine ⟨x :: l1, l2, by rw [List.cons_append, ← he], hlt, ?_, h2⟩
        intro y hy
        rcases List.mem_cons.mp hy with rfl | hy2
        · exact lt_of_lt_of_le hlt (le_of_not_lt hx)
        · exact h1 y hy2

/-- When the list is nonempty and every key beats the initial bound, the
loop returns the *first* element attaining the minimum key. -/
lemma selGo_first_argmin {V : Type} [LinearOrder V] (key : ℕ → V)
    (l : List ℕ) (i0 : ℕ) (m0 : V) (hne : l ≠ [])
    (hall : ∀ y ∈ l, key y < m0) :
    ∃ l1 l2, l = l1 ++ selGo key l i0 m0 :: l2 ∧
      (∀ y ∈ l1, key (selGo key l i0 m0) < key y) ∧
      (∀ y ∈ l2, key (selGo key l i0 m0) ≤ key y) := by
  match l with
  | [] => exact absurd rfl hne
  | x :: xs =>
    have hx : key x < m0 := hall x (by simp)
    have hsel : selGo key (x :: xs) i0 m0 = selGo key xs x (key x) := by
      rw [selGo, if_pos hx]
    rw [hsel]
    rcases selGo_argmin key xs x with ⟨ha, hb⟩ | ⟨l1, l2, he, hlt, h1, h2⟩
    · refine ⟨[], xs, ?_, by simp, ?_⟩
      · rw [ha]
        rfl
      · intro y hy
        rw [ha]
        exact hb y hy
    · refine ⟨x :: l1, l2, by rw [List.cons_append, ← he], ?_, h2⟩
      intro y hy
      rcases List.mem_cons.mp hy with rfl | hy2
      · exact hlt
      · exact h1 y hy2

/-- The pairwise (`n = 2`) index value `get_single_index` computes for a
tied candidate `i` against an already-selected `j`: `gen_sim_dict` on the
single aggregate `total_data[j] + total_data[i]` with population `2` and
unset threshold (which resolves to `2 % 2 = 0`), looked up at the chosen
name and weight family. -/
def pairValue {V : Type} [Field V] (ops : AnalyticOps V) (nary : IndexName)
    (wt : WeightMode) (total_data : List (List ℤ)) (j i : ℕ) : V :=
  getIdx
    (mkIndices ops
      (calculate_countersScheme
        (List.zipWith (· + ·) (total_data.getD j []) (total_data.getD i []))
        2 ((((2 : ℕ) : ℤ) % 2 : ℤ) : ℚ) .fraction))
    wt nary

/-- The plain average of the pairwise values of candidate `i` over the
already-selected set — the quantity the specification describes. -/
def avgPairSim {V : Type} [Field V] (ops : AnalyticOps V) (nary : IndexName)
    (wt : WeightMode) (total_data : List (List ℤ)) (selected_n : List ℕ)
    (i : ℕ) : V :=
  ((selected_n.map (fun j => pairValue ops nary wt total_data j i)).sum) /
    (selected_n.length : V)

/-- `get_single_index` (`ECS_MeDiv.py`, lines 269-285): for each tied
candidate `i`, sum the pairwise values against every already-selected
`j` and divide by `len(selected_n) + 1`; keep the candidate whose
quotient compares strictly below the running minimum (initially `3.08`),
starting from the placeholder `len(total_data[0]) + 1`. -/
def get_single_index {V : Type} [LinearOrderedField V] (ops : AnalyticOps V)
    (nary : IndexName) (wt : WeightMode) (total_data : List (List ℤ))
    (indices selected_n : List ℕ) : ℕ :=
  selGo
    (fun i =>
      ((selected_n.map (fun j => pairValue ops nary wt total_data j i)).sum) /
        ((selected_n.length : V) + 1))
    indices ((total_data.headD []).length + 1) (308 / 100)

/-- C4: with a nonempty tie set, a nonempty already-selected set, and
pairwise values bounded by 1 (as every unweighted index value is), the
tie-breaker returns the first candidate, in the original iteration
order, whose average pairwise similarity over the already-selected set
is minimal: every earlier candidate has a strictly larger average, every
later one an average at least as large.  (The code divides by
`len(selected_n) + 1` instead of `len(selected_n)`, but that common
positive factor does not change which candidate attains the minimum.) -/
theorem c4_tie_breaker {V : Type} [LinearOrderedField V] (ops : AnalyticOps V)
    (nary : IndexName) (wt : WeightMode) (total_data : List (List ℤ))
    (indices selected_n : List ℕ) (hne : indices ≠ [])
    (hsel : selected_n ≠ [])
    (hbound : ∀ i ∈ indices, ∀ j ∈ selected_n,
      pairValue ops nary wt total_data j i ≤ 1) :
    ∃ l1 l2,
      indices = l1 ++ get_single_index ops nary wt total_data indices selected_n :: l2 ∧
      (∀ y ∈ l1,
        avgPairSim ops nary wt total_data selected_n
            (get_single_index ops nary wt total_data indices selected_n) <
          avgPairSim ops nary wt total_data selected_n y) ∧
      (∀ y ∈ l2,
        avgPairSim ops nary wt total_data selected_n
            (get_single_index ops nary wt total_data indices selected_n) ≤
          avgPairSim ops nary wt total_data selected_n y) := by
  have hkpos : (0 : V) < (selected_n.length : V) :=
    Nat.cast_pos.mpr (List.length_pos.mpr hsel)
  have hk1pos : (0 : V) < (selected_n.length : V) + 1 := by linarith
  set key : ℕ → V := fun i =>
    ((selected_n.map (fun j => pairValue ops nary wt total_data j i)).sum) /
      ((selected_n.length : V) + 1) with hkey
  have hall : ∀ y ∈ indices, key y < 308 / 100 := by
    intro y hy
    have hsum : ((selected_n.map
        (fun j => pairValue ops nary wt total_data j y)).sum) ≤
          (selected_n.length : V) := by
      have := List.sum_le_card_nsmul
        (selected_n.map (fun j => pairValue ops nary wt total_data j y)) 1
        (fun x hx => by
          obtain ⟨j, hj, rfl⟩ := List.mem_map.mp hx
          exact hbound y hy j hj)
      simpa [mul_one] using this
    have h1 : key y ≤ (selected_n.length : V) / ((selected_n.length : V) + 1) :=
      (div_le_div_iff_of_pos_right hk1pos).mpr hsum
    have h2 : (selected_n.length : V) / ((selected_n.length : V) + 1) < 1 :=
      (div_lt_one hk1pos).mpr (by linarith)
    have h3 : (1 : V) < 308 / 100 := by
      rw [lt_div_iff₀ (by norm_num : (0 : V) < 100)]
      norm_num
    exact lt_trans (lt_of_le_of_lt h1 h2) h3
  have hconv : ∀ y z : ℕ, (key y < key z ↔
      avgPairSim ops nary wt total_data selected_n y <
        avgPairSim ops nary wt total_data selected_n z) := by
    intro y z
    rw [hkey]
    unfold avgPairSim
    rw [div_lt_div_iff_of_pos_right hk1pos, div_lt_div_iff_of_pos_right hkpos]
  have hconvle : ∀ y z : ℕ, (key y ≤ key z ↔
      avgPairSim ops nary wt total_data selected_n y ≤
        avgPairSim ops nary wt total_data selected_n z) := by
    intro y z
    rw [hkey]
    unfold avgPairSim
    rw [div_le_div_iff_of_pos_right hk1pos, div_le_div_iff_of_pos_right hkpos]
  obtain ⟨l1, l2, hsplit, h1, h2⟩ := selGo_first_argmin key indices
    ((total_data.headD []).length + 1) (308 / 100) hne hall
  exact ⟨l1, l2, hsplit,
    fun y hy => (hconv _ y).mp (h1 y hy),
    fun y hy => (hconvle _ y).mp (h2 y hy)⟩

/-- C4 witness: the tie-breaker theorem applied at the concrete collection
`[[1,0],[0,1],[1,1]]` with tie set `[1, 2]` and selected set `[0]`. -/
theorem c4_tie_breaker_witness :
    (([1, 2] : List ℕ) ≠ [] ∧ ([0] : List ℕ) ≠ [] ∧
      (∀ i ∈ ([1, 2] : List ℕ), ∀ j ∈ ([0] : List ℕ),
        pairValue (V := ℚ) ratOps .RR .nw [[1, 0], [0, 1], [1, 1]] j i ≤ 1)) ∧
    ∃ l1 l2,
      ([1, 2] : List ℕ) =
          l1 ++ get_single_index (V := ℚ) ratOps .RR .nw
            [[1, 0], [0, 1], [1, 1]] [1, 2] [0] :: l2 ∧
        (∀ y ∈ l1,
          avgPairSim (V := ℚ) ratOps .RR .nw [[1, 0], [0, 1], [1, 1]] [0]
              (get_single_index (V := ℚ) ratOps .RR .nw
                [[1, 0], [0, 1], [1, 1]] [1, 2] [0]) <
            avgPairSim (V := ℚ) ratOps .RR .nw [[1, 0], [0, 1], [1, 1]] [0] y) ∧
        (∀ y ∈ l2,
          avgPairSim (V := ℚ) ratOps .RR .nw [[1, 0], [0, 1], [1, 1]] [0]
              (get_single_index (V := ℚ) ratOps .RR .nw
                [[1, 0], [0, 1], [1, 1]] [1, 2] [0]) ≤
            avgPairSim (V := ℚ) ratOps .RR .nw [[1, 0], [0, 1], [1, 1]] [0] y) := by
  have hbound : ∀ i ∈ ([1, 2] : List ℕ), ∀ j ∈ ([0] : List ℕ),
      pairValue (V := ℚ) ratOps .RR .nw [[1, 0], [0, 1], [1, 1]] j i ≤ 1 := by
    intro i hi j hj
    fin_cases hi <;> fin_cases hj <;>
      norm_num [pairValue, List.zipWith, calculate_countersScheme, List.foldl,
        counterStep, finalizeCounters, rawZero, f_s, f_d, mkIndices, getIdx,
        Rat.cast_id]
  exact ⟨⟨by simp, by simp, hbound⟩,
    c4_tie_breaker (V := ℚ) ratOps .RR .nw [[1, 0], [0, 1], [1, 1]] [1, 2] [0]
      (by simp) (by simp) hbound⟩

/-- The n-ary value `get_new_index_n` (and, at `n = 2`,
`get_single_index`) reads from the catalog: fraction-weight counters of a
single aggregate at population `nn`, default threshold `nn % 2`,
unweighted family. -/
def naryValue {V : Type} [Field V] (ops : AnalyticOps V) (nary : IndexName)
    (agg : List ℤ) (nn : ℕ) : V :=
  getIdx
    (mkIndices ops
      (calculate_countersScheme agg nn ((((nn : ℕ) : ℤ) % 2 : ℤ) : ℚ) .fraction))
    .nw nary

/-- The trial value of candidate `i` in `get_new_index_n`: aggregate
`selected_condensed + total_data[i]`, population `n + 1`, threshold
`'min'` (resolved to `(n + 1) % 2`), unweighted chosen index. -/
def trialValue {V : Type} [Field V] (ops : AnalyticOps V) (nary : IndexName)
    (total_data : List (List ℤ)) (selected_condensed : List ℤ) (n : ℕ)
    (i : ℕ) : V :=
  naryValue ops nary
    (List.zipWith (· + ·) selected_condensed (total_data.getD i [])) (n + 1)

/-- The argmin-with-ties loop of `get_new_index_n`: a strictly smaller
value restarts the tie list, an equal value appends to it. -/
def tieGo {V : Type} [LinearOrder V] (key : ℕ → V) :
    List ℕ → List ℕ → V → List ℕ × V
  | [], acc, m => (acc, m)
  | x :: xs, acc, m =>
    if key x < m then tieGo key xs [x] (key x)
    else if key x = m then tieGo key xs (acc ++ [x]) m
    else tieGo key xs acc m

/-- `get_new_index_n` (`ECS_MeDiv.py`, lines 287-316): collect all
candidates attaining the minimal trial value (starting from the
placeholder list `[len(total_data[0]) + 1]` and bound `3.08`); a unique
one is selected directly, otherwise `get_single_index` breaks the tie
over the already-selected set with the unweighted pairwise criterion. -/
def get_new_index_n {V : Type} [LinearOrderedField V] (ops : AnalyticOps V)
    (nary : IndexName) (total_data : List (List ℤ))
    (selected_condensed : List ℤ) (n : ℕ)
    (select_from selected_n : List ℕ) : ℕ :=
  if (tieGo (trialValue ops nary total_data selected_condensed n) select_from
      [(total_data.headD []).length + 1] (308 / 100)).1.length = 1 then
    (tieGo (trialValue ops nary total_data selected_condensed n) select_from
      [(total_data.headD []).length + 1] (308 / 100)).1.headD
      ((total_data.headD []).length + 1)
  else
    get_single_index ops nary .nw total_data
      (tieGo (trialValue ops nary total_data selected_condensed n) select_from
        [(total_data.headD []).length + 1] (308 / 100)).1 selected_n

/-- The state of one ECS_MeDiv run: the ordered list of selected indices
and the running column-sum vector `selected_condensed`. -/
structure SelState where
  selected : List ℕ
  condensed : List ℤ

/-- The index `get_new_index_n` picks at the current state:
`select_from_n = np.delete(total_indices, selected_n)` is the ascending
list of not-yet-selected indices (deleting the positions `selected_n`
from the identity array `range(fp_total)` removes exactly those
values). -/
def chosenIdx {V : Type} [LinearOrderedField V] (ops : AnalyticOps V)
    (nary : IndexName) (total_data : List (List ℤ)) (st : SelState) : ℕ :=
  get_new_index_n ops nary total_data st.condensed st.selected.length
    ((List.range total_data.length).filter (fun i => decide (i ∉ st.selected)))
    st.selected

/-- One iteration of the `while len(selected_n) < 10` loop
(`ECS_MeDiv.py`, lines 361-377): pick a new index, add its fingerprint
into the running column sums and append it to the selection. -/
def ecsStep {V : Type} [LinearOrderedField V] (ops : AnalyticOps V)
    (nary : IndexName) (total_data : List (List ℤ)) (st : SelState) :
    SelState :=
  { selected := st.selected ++ [chosenIdx ops nary total_data st],
    condensed := List.zipWith (· + ·) st.condensed
      (total_data.getD (chosenIdx ops nary total_data st) []) }

/-- `t` iterations of the selection loop from the seeded initial state
(`selected_n = [seed]`, `selected_condensed = total_data[seed]`). -/
def ecsRun {V : Type} [LinearOrderedField V] (ops : AnalyticOps V)
    (nary : IndexName) (total_data : List (List ℤ)) (seed : ℕ) :
    ℕ → SelState
  | 0 => ⟨[seed], total_data.getD seed []⟩
  | t + 1 => ecsStep ops nary total_data (ecsRun ops nary total_data seed t)

/-- The element-wise sum of the fingerprints of a list of indices. -/
def colAccum (m : ℕ) (total_data : List (List ℤ)) (sel : List ℕ) : List ℤ :=
  (sel.map (fun i => total_data.getD i [])).foldl (List.zipWith (· + ·))
    (List.replicate m 0)

/-- Decomposition of `zipWith` membership. -/
lemma mem_zipWith {α β γ : Type} (f : α → β → γ) :
    ∀ (as : List α) (bs : List β) (y : γ), y ∈ List.zipWith f as bs →
      ∃ a ∈ as, ∃ b ∈ bs, y = f a b := by
  intro as
  induction as with
  | nil => intro bs y hy; simp at hy
  | cons a as ih =>
    intro bs y hy
    cases bs with
    | nil => simp at hy
    | cons b bs =>
      rw [List.zipWith_cons_cons] at hy
      rcases List.mem_cons.mp hy with rfl | hy2
      · exact ⟨a, by simp, b, by simp, rfl⟩
      · obtain ⟨a2, ha2, b2, hb2, heq⟩ := ih bs y hy2
        exact ⟨a2, by simp [ha2], b2, by simp [hb2], heq⟩

/-- The default head of a nonempty list is a member. -/
lemma headD_mem_of_ne_nil (l : List ℕ) (d : ℕ) (h : l ≠ []) :
    l.headD d ∈ l := by
  cases l with
  | nil => exact absurd rfl h
  | cons x t => simp

/-- Appending does not change the head of a nonempty list. -/
lemma headD_append_left (l l2 : List ℕ) (d : ℕ) (h : l ≠ []) :
    (l ++ l2).headD d = l.headD d := by
  cases l with
  | nil => exact absurd rfl h
  | cons x t => simp

/-- The tie list stays nonempty and inside the initial tie list plus the
scanned candidates. -/
lemma tieGo_mem {V : Type} [LinearOrder V] (key : ℕ → V) :
    ∀ (xs acc : List ℕ) (m : V), acc ≠ [] →
      (tieGo key xs acc m).1 ≠ [] ∧
        (∀ y ∈ (tieGo key xs acc m).1, y ∈ acc ∨ y ∈ xs) := by
  intro xs
  induction xs with
  | nil => intro acc m hacc; exact ⟨hacc, fun y hy => Or.inl hy⟩
  | cons x xs ih =>
    intro acc m hacc
    rw [tieGo]
    by_cases h1 : key x < m
    · rw [if_pos h1]
      obtain ⟨hne, hmem⟩ := ih [x] (key x) (by simp)
      refine ⟨hne, fun y hy => ?_⟩
      rcases hmem y hy with h | h
      · simp at h
        subst h
        exact Or.inr (by simp)
      · exact Or.inr (by simp [h])
    · rw [if_neg h1]
      by_cases h2 : key x = m
      · rw [if_pos h2]
        obtain ⟨hne, hmem⟩ := ih (acc ++ [x]) m (by simp)
        refine ⟨hne, fun y hy => ?_⟩
        rcases hmem y hy with h | h
        · rcases List.mem_append.mp h with h3 | h3
          · exact Or.inl h3
          · simp at h3
            subst h3
            exact Or.inr (by simp)
        · exact Or.inr (by simp [h])
      · rw [if_neg h2]
        obtain ⟨hne, hmem⟩ := ih acc m hacc
        refine ⟨hne, fun y hy => ?_⟩
        rcases hmem y hy with h | h
        · exact Or.inl h
        · exact Or.inr (by simp [h])

/-- If the candidate pool is nonempty and every candidate beats the
bound, the tie list is a nonempty subset of the pool (the placeholder is
discarded at the first candidate). -/
lemma tieGo_all_lt {V : Type} [LinearOrder V] (key : ℕ → V)
    (xs acc : List ℕ) (m : V) (hne : xs ≠ [])
    (hall : ∀ y ∈ xs, key y < m) :
    (tieGo key xs acc m).1 ≠ [] ∧
      ∀ y ∈ (tieGo key xs acc m).1, y ∈ xs := by
  match xs with
  | [] => exact absurd rfl hne
  | x :: rest =>
    have hx : key x < m := hall x (by simp)
    rw [tieGo, if_pos hx]
    obtain ⟨hne2, hmem⟩ := tieGo_mem key rest [x] (key x) (by simp)
    refine ⟨hne2, fun y hy => ?_⟩
    rcases hmem y hy with h | h
    · simp at h
      subst h
      simp
    · simp [h]

/-- The tie-break quotient of any candidate with pairwise values bounded
by 1 stays below the `3.08` sentinel. -/
lemma pairKey_lt_cap {V : Type} [LinearOrderedField V] (ops : AnalyticOps V)
    (nary : IndexName) (wt : WeightMode) (total_data : List (List ℤ))
    (selected_n : List ℕ) (hsel : selected_n ≠ []) (i : ℕ)
    (hb : ∀ j ∈ selected_n, pairValue ops nary wt total_data j i ≤ 1) :
    ((selected_n.map (fun j => pairValue ops nary wt total_data j i)).sum) /
        ((selected_n.length : V) + 1) < 308 / 100 := by
  have hkpos : (0 : V) < (selected_n.length : V) :=
    Nat.cast_pos.mpr (List.length_pos.mpr hsel)
  have hk1pos : (0 : V) < (selected_n.length : V) + 1 := by linarith
  have hsum : ((selected_n.map
      (fun j => pairValue ops nary wt total_data j i)).sum) ≤
        (selected_n.length : V) := by
    have := List.sum_le_card_nsmul
      (selected_n.map (fun j => pairValue ops nary wt total_data j i)) 1
      (fun x hx => by
        obtain ⟨j, hj, rfl⟩ := List.mem_map.mp hx
        exact hb j hj)
    simpa [mul_one] using this
  have h1 := (div_le_div_iff_of_pos_right hk1pos).mpr hsum
  have h2 : (selected_n.length : V) / ((selected_n.length : V) + 1) < 1 :=
    (div_lt_one hk1pos).mpr (by linarith)
  have h3 : (1 : V) < 308 / 100 := by
    rw [lt_div_iff₀ (by norm_num : (0 : V) < 100)]
    norm_num
  exact lt_trans (lt_of_le_of_lt h1 h2) h3

/-- With bounded pairwise values, the tie-breaker picks a member of the
tie list. -/
lemma get_single_index_mem {V : Type} [LinearOrderedField V]
    (ops : AnalyticOps V) (nary : IndexName) (wt : WeightMode)
    (total_data : List (List ℤ)) (indices selected_n : List ℕ)
    (hne : indices ≠ []) (hsel : selected_n ≠ [])
    (hb : ∀ i ∈ indices, ∀ j ∈ selected_n,
      pairValue ops nary wt total_data j i ≤ 1) :
    get_single_index ops nary wt total_data indices selected_n ∈ indices := by
  unfold get_single_index
  obtain ⟨x, hx⟩ := List.exists_mem_of_ne_nil indices hne
  exact selGo_mem_of_exists _ indices _ _
    ⟨x, hx, pairKey_lt_cap ops nary wt total_data selected_n hsel x (hb x hx)⟩

/-- With a nonempty candidate pool, trial values below the sentinel and
bounded pairwise values, `get_new_index_n` picks a member of the pool. -/
lemma get_new_index_n_mem {V : Type} [LinearOrderedField V]
    (ops : AnalyticOps V) (nary : IndexName) (total_data : List (List ℤ))
    (selected_condensed : List ℤ) (n : ℕ) (select_from selected_n : List ℕ)
    (hne : select_from ≠ [])
    (hall : ∀ i ∈ select_from,
      trialValue ops nary total_data selected_condensed n i < 308 / 100)
    (hsel : selected_n ≠ [])
    (hpair : ∀ i ∈ select_from, ∀ j ∈ selected_n,
      pairValue ops nary .nw total_data j i ≤ 1) :
    get_new_index_n ops nary total_data selected_condensed n select_from
      selected_n ∈ select_from := by
  unfold get_new_index_n
  obtain ⟨hres_ne, hres_sub⟩ := tieGo_all_lt
    (trialValue ops nary total_data selected_condensed n) select_from
    [(total_data.headD []).length + 1] (308 / 100) hne hall
  by_cases hlen :
      (tieGo (trialValue ops nary total_data selected_condensed n) select_from
        [(total_data.headD []).length + 1] (308 / 100)).1.length = 1
  · rw [if_pos hlen]
    exact hres_sub _ (headD_mem_of_ne_nil _ _ hres_ne)
  · rw [if_neg hlen]
    exact hres_sub _ (get_single_index_mem ops nary .nw total_data _ selected_n
      hres_ne hsel (fun i hi j hj => hpair i (hres_sub i hi) j hj))

/-- C5: throughout every selection run whose index evaluations respect
the code's own `3.08` sentinel bound (every genuine index value does; the
`RR` instance is proved below), after each iteration the selected
sequence has grown by exactly one index, contains no duplicate, keeps the
seed as its first element, stays inside the collection, and the running
aggregate equals the element-wise sum of the selected fingerprints. -/
theorem c5_selection_invariants {V : Type} [LinearOrderedField V]
    (ops : AnalyticOps V) (nary : IndexName) (total_data : List (List ℤ))
    (m seed : ℕ) (_hm : 1 ≤ m)
    (hrows : ∀ r ∈ total_data, r.length = m)
    (hbin : ∀ r ∈ total_data, ∀ x ∈ r, x = 0 ∨ x = 1)
    (hseed : seed < total_data.length)
    (hval : ∀ (agg : List ℤ) (nn : ℕ), 2 ≤ nn → agg.length = m →
      (∀ s ∈ agg, 0 ≤ s ∧ s ≤ (nn : ℤ)) →
      naryValue ops nary agg nn < 308 / 100)
    (hpair : ∀ agg : List ℤ, agg.length = m →
      (∀ s ∈ agg, 0 ≤ s ∧ s ≤ (2 : ℤ)) →
      naryValue ops nary agg 2 ≤ 1) :
    ∀ t : ℕ, t < total_data.length →
      (ecsRun ops nary total_data seed t).selected.length = t + 1 ∧
      (ecsRun ops nary total_data seed t).selected.Nodup ∧
      (ecsRun ops nary total_data seed t).selected.headD 0 = seed ∧
      (∀ i ∈ (ecsRun ops nary total_data seed t).selected,
        i < total_data.length) ∧
      (ecsRun ops nary total_data seed t).condensed =
        colAccum m total_data (ecsRun ops nary total_data seed t).selected ∧
      (ecsRun ops nary total_data seed t).condensed.length = m ∧
      (∀ s ∈ (ecsRun ops nary total_data seed t).condensed,
        0 ≤ s ∧ s ≤ ((t + 1 : ℕ) : ℤ)) := by
  have hrow_mem : ∀ i, i < total_data.length → total_data.getD i [] ∈ total_data := by
    intro i hi
    rw [List.getD_eq_getElem total_data [] hi]
    exact List.getElem_mem hi
  intro t
  induction t with
  | zero =>
    intro _
    have hmem0 := hrow_mem seed hseed
    have hlen0 : (total_data.getD seed []).length = m := hrows _ hmem0
    refine ⟨rfl, by simp [ecsRun], rfl, ?_, ?_, hlen0, ?_⟩
    · intro i hi
      have hie : i = seed := by simpa [ecsRun] using hi
      subst hie
      exact hseed
    · show total_data.getD seed [] = colAccum m total_data [seed]
      unfold colAccum
      rw [List.map_cons, List.map_nil, List.foldl_cons, List.foldl_nil,
        ← hlen0, zipWith_zero_add]
    · intro s hs
      rcases hbin _ hmem0 s hs with rfl | rfl
      · exact ⟨le_refl 0, by norm_num⟩
      · exact ⟨by norm_num, by norm_num⟩
  | succ t ih =>
    intro ht
    obtain ⟨ihlen, ihnd, ihhead, ihmem, ihcond, ihclen, ihbound⟩ :=
      ih (by omega)
    have hselne : (ecsRun ops nary total_data seed t).selected ≠ [] := by
      intro h
      rw [h] at ihlen
      simp at ihlen
    have hSFne : (List.range total_data.length).filter
        (fun i => decide (i ∉ (ecsRun ops nary total_data seed t).selected)) ≠ [] := by
      have hnotsub : ¬ (List.range total_data.length ⊆
          (ecsRun ops nary total_data seed t).selected) := by
        intro hsub
        have hle := (List.subperm_of_subset
          (List.nodup_range total_data.length) hsub).length_le
        rw [List.length_range, ihlen] at hle
        omega
      rw [List.subset_def] at hnotsub
      push_neg at hnotsub
      obtain ⟨j, hj1, hj2⟩ := hnotsub
      exact List.ne_nil_of_mem
        (List.mem_filter.mpr ⟨hj1, by simpa using hj2⟩)
    have hSFprops : ∀ i ∈ (List.range total_data.length).filter
        (fun i => decide (i ∉ (ecsRun ops nary total_data seed t).selected)),
        i < total_data.length ∧ i ∉ (ecsRun ops nary total_data seed t).selected := by
      intro i hi
      obtain ⟨h1, h2⟩ := List.mem_filter.mp hi
      exact ⟨List.mem_range.mp h1, by simpa using h2⟩
    have hall : ∀ i ∈ (List.range total_data.length).filter
        (fun i => decide (i ∉ (ecsRun ops nary total_data seed t).selected)),
        trialValue ops nary total_data
          (ecsRun ops nary total_data seed t).condensed
          (ecsRun ops nary total_data seed t).selected.length i < 308 / 100 := by
      intro i hi
      obtain ⟨hiN, _⟩ := hSFprops i hi
      have hrowm := hrow_mem i hiN
      have hrowlen := hrows _ hrowm
      show naryValue ops nary
        (List.zipWith (· + ·) (ecsRun ops nary total_data seed t).condensed
          (total_data.getD i []))
        ((ecsRun ops nary total_data seed t).selected.length + 1) < 308 / 100
      apply hval
      · omega
      · rw [List.length_zipWith, ihclen, hrowlen]
        omega
      · intro s hs
        obtain ⟨a, ha, b, hb, rfl⟩ := mem_zipWith _ _ _ s hs
        obtain ⟨ha0, ha1⟩ := ihbound a ha
        rcases hbin _ hrowm b hb with rfl | rfl <;>
          (rw [ihlen]; constructor <;> omega)
    have hpairb : ∀ i ∈ (List.range total_data.length).filter
        (fun i => decide (i ∉ (ecsRun ops nary total_data seed t).selected)),
        ∀ j ∈ (ecsRun ops nary total_data seed t).selected,
        pairValue ops nary .nw total_data j i ≤ 1 := by
      intro i hi j hj
      obtain ⟨hiN, _⟩ := hSFprops i hi
      have hjN := ihmem j hj
      have hrmi := hrow_mem i hiN
      have hrmj := hrow_mem j hjN
      show naryValue ops nary
        (List.zipWith (· + ·) (total_data.getD j []) (total_data.getD i []))
        2 ≤ 1
      apply hpair
      · rw [List.length_zipWith, hrows _ hrmj, hrows _ hrmi]
        omega
      · intro s hs
        obtain ⟨a, ha, b, hb, rfl⟩ := mem_zipWith _ _ _ s hs
        rcases hbin _ hrmj a ha with rfl | rfl <;>
          rcases hbin _ hrmi b hb with rfl | rfl <;> norm_num
    have hchosen : chosenIdx ops nary total_data (ecsRun ops nary total_data seed t) ∈
        (List.range total_data.length).filter
          (fun i => decide (i ∉ (ecsRun ops nary total_data seed t).selected)) := by
      unfold chosenIdx
      exact get_new_index_n_mem ops nary total_data _ _ _ _ hSFne hall hselne hpairb
    obtain ⟨hcN, hcnot⟩ := hSFprops _ hchosen
    have hrowc := hrow_mem _ hcN
    have hrowclen := hrows _ hrowc
    show _ ∧ _ ∧ _ ∧ _ ∧ _ ∧ _ ∧ _
    have hstep : ecsRun ops nary total_data seed (t + 1) =
        ecsStep ops nary total_data (ecsRun ops nary total_data seed t) := rfl
    rw [hstep]
    unfold ecsStep
    refine ⟨by simp [ihlen], ?_, ?_, ?_, ?_, ?_, ?_⟩
    · exact List.Nodup.append ihnd (List.nodup_singleton _)
        (fun a ha hb => by
          simp at hb
          subst hb
          exact hcnot ha)
    · show ((ecsRun ops nary total_data seed t).selected ++ [_]).headD 0 = seed
      rw [headD_append_left _ _ _ hselne]
      exact ihhead
    · intro i hi
      rcases List.mem_append.mp hi with h | h
      · exact ihmem i h
      · simp at h
        subst h
        exact hcN
    · show List.zipWith (· + ·) (ecsRun ops nary total_data seed t).condensed _ =
        colAccum m total_data _
      rw [ihcond]
      unfold colAccum
      rw [List.map_append, List.map_cons, List.map_nil, List.foldl_append,
        List.foldl_cons, List.foldl_nil]
    · show (List.zipWith (· + ·) _ _).length = m
      rw [List.length_zipWith, ihclen, hrowclen]
      omega
    · intro s hs
      obtain ⟨a, ha, b, hb, rfl⟩ := mem_zipWith _ _ _ s hs
      obtain ⟨ha0, ha1⟩ := ihbound a ha
      rcases hbin _ hrowc b hb with rfl | rfl <;> (constructor <;> omega)

/-- Every column is classified into exactly one of the three classes, so
`p` equals the number of columns. -/
lemma counts_partition (n : ℕ) (c : ℚ) :
    ∀ l : List ℤ,
      l.countP (colA n c) + l.countP (colD n c) + l.countP (colDis n c) =
        l.length := by
  intro l
  induction l with
  | nil => simp
  | cons s l ih =>
    rw [List.countP_cons, List.countP_cons, List.countP_cons]
    cases hA : colA n c s with
    | true =>
      have hD : colD n c s = false := by simp [colD, hA]
      have hDis : colDis n c s = false := by simp [colDis, hA]
      simp only [hA, hD, hDis, if_true, if_false, List.length_cons,
        Bool.false_eq_true]
      omega
    | false =>
      cases h2 : decide ((n : ℚ) - 2 * (s : ℚ) > c) with
      | true =>
        have hD : colD n c s = true := by simp [colD, hA, h2]
        have hDis : colDis n c s = false := by simp [colDis, hA, h2]
        simp only [hA, hD, hDis, if_true, if_false, List.length_cons,
          Bool.false_eq_true]
        omega
      | false =>
        have hD : colD n c s = false := by simp [colD, hA, h2]
        have hDis : colDis n c s = true := by simp [colDis, hA, h2]
        simp only [hA, hD, hDis, if_true, if_false, List.length_cons,
          Bool.false_eq_true]
        omega

/-- The unweighted `RR` value over fraction-weight counters lies in
`[0, 1]` whenever the aggregate is valid (entries in `[0, n]`) and
nonempty — so every comparison of the selection loop stays below the
`3.08` sentinel. -/
lemma rr_naryValue_bounds (ops : AnalyticOps ℚ) (agg : List ℤ) (nn : ℕ)
    (h2 : 2 ≤ nn) (hb : ∀ s ∈ agg, 0 ≤ s ∧ s ≤ (nn : ℤ))
    (hlen : 1 ≤ agg.length) :
    0 ≤ naryValue ops .RR agg nn ∧ naryValue ops .RR agg nn ≤ 1 := by
  have hnn0 : (0 : ℚ) < (nn : ℚ) := by
    have : (0 : ℕ) < nn := by omega
    exact_mod_cast this
  have hc0 : (0 : ℚ) ≤ ((((nn : ℕ) : ℤ) % 2 : ℤ) : ℚ) := by
    have := Int.emod_nonneg ((nn : ℕ) : ℤ) (by norm_num : (2 : ℤ) ≠ 0)
    exact_mod_cast this
  have hwa_form : (calculate_countersScheme agg nn
      ((((nn : ℕ) : ℤ) % 2 : ℤ) : ℚ) .fraction).w_a =
        (agg.map (wContribA nn ((((nn : ℕ) : ℤ) % 2 : ℤ) : ℚ) .fraction)).sum := by
    unfold calculate_countersScheme finalizeCounters
    rw [fold_counterStep]
    simp [rawZero]
  have hp_form : (calculate_countersScheme agg nn
      ((((nn : ℕ) : ℤ) % 2 : ℤ) : ℚ) .fraction).p = agg.length := by
    unfold calculate_countersScheme finalizeCounters
    rw [fold_counterStep]
    simp only [rawZero, zero_add]
    exact counts_partition nn _ agg
  have hcontrib : ∀ x ∈ agg.map
      (wContribA nn ((((nn : ℕ) : ℤ) % 2 : ℤ) : ℚ) .fraction),
      0 ≤ x ∧ x ≤ 1 := by
    intro x hx
    obtain ⟨s, hs, rfl⟩ := List.mem_map.mp hx
    obtain ⟨hs0, hsn⟩ := hb s hs
    unfold wContribA
    by_cases hA : colA nn ((((nn : ℕ) : ℤ) % 2 : ℤ) : ℚ) s
    · rw [if_pos hA]
      have hApos : 2 * (s : ℚ) - (nn : ℚ) > ((((nn : ℕ) : ℤ) % 2 : ℤ) : ℚ) := by
        simpa [colA] using hA
      have hpos : (0 : ℚ) < 2 * (s : ℚ) - (nn : ℚ) := lt_of_le_of_lt hc0 hApos
      unfold f_s
      have hnum : ((2 * s - (nn : ℤ) : ℤ) : ℚ) = 2 * (s : ℚ) - (nn : ℚ) := by
        push_cast
        ring
      constructor
      · apply div_nonneg _ (le_of_lt hnn0)
        rw [hnum]
        linarith
      · rw [div_le_one hnn0, hnum]
        have : (s : ℚ) ≤ (nn : ℚ) := by exact_mod_cast hsn
        linarith
    · rw [if_neg hA]
      norm_num
  have hsum0 : 0 ≤ (agg.map
      (wContribA nn ((((nn : ℕ) : ℤ) % 2 : ℤ) : ℚ) .fraction)).sum :=
    List.sum_nonneg (fun x hx => (hcontrib x hx).1)
  have hsumle : (agg.map
      (wContribA nn ((((nn : ℕ) : ℤ) % 2 : ℤ) : ℚ) .fraction)).sum ≤
        (agg.length : ℚ) := by
    have := List.sum_le_card_nsmul
      (agg.map (wContribA nn ((((nn : ℕ) : ℤ) % 2 : ℤ) : ℚ) .fraction)) 1
      (fun x hx => (hcontrib x hx).2)
    simpa [mul_one] using this
  have hlpos : (0 : ℚ) < (agg.length : ℚ) := by
    have : (0 : ℕ) < agg.length := by omega
    exact_mod_cast this
  have hval_form : naryValue ops .RR agg nn =
      (agg.map (wContribA nn ((((nn : ℕ) : ℤ) % 2 : ℤ) : ℚ) .fraction)).sum /
        (agg.length : ℚ) := by
    unfold naryValue getIdx mkIndices
    simp only [Rat.cast_id]
    rw [hwa_form, hp_form]
  rw [hval_form]
  exact ⟨div_nonneg hsum0 (le_of_lt hlpos),
    (div_le_one hlpos).mpr hsumle⟩

/-- C5 witness: the invariants theorem applied for two iterations of an
`RR` run on the binary collection `[[1,0],[0,1],[1,1],[0,0]]` seeded at
index 0; the value-bound hypotheses are discharged by the proved `RR`
bounds. -/
theorem c5_selection_invariants_witness :
    (ecsRun (V := ℚ) ratOps .RR [[1, 0], [0, 1], [1, 1], [0, 0]] 0 2).selected.length
        = 2 + 1 ∧
      (ecsRun (V := ℚ) ratOps .RR [[1, 0], [0, 1], [1, 1], [0, 0]] 0 2).selected.Nodup ∧
      (ecsRun (V := ℚ) ratOps .RR [[1, 0], [0, 1], [1, 1], [0, 0]] 0 2).selected.headD 0
        = 0 ∧
      (∀ i ∈ (ecsRun (V := ℚ) ratOps .RR [[1, 0], [0, 1], [1, 1], [0, 0]] 0 2).selected,
        i < ([[1, 0], [0, 1], [1, 1], [0, 0]] : List (List ℤ)).length) ∧
      (ecsRun (V := ℚ) ratOps .RR [[1, 0], [0, 1], [1, 1], [0, 0]] 0 2).condensed =
        colAccum 2 [[1, 0], [0, 1], [1, 1], [0, 0]]
          (ecsRun (V := ℚ) ratOps .RR [[1, 0], [0, 1], [1, 1], [0, 0]] 0 2).selected ∧
      (ecsRun (V := ℚ) ratOps .RR [[1, 0], [0, 1], [1, 1], [0, 0]] 0 2).condensed.length
        = 2 ∧
      (∀ s ∈ (ecsRun (V := ℚ) ratOps .RR [[1, 0], [0, 1], [1, 1], [0, 0]] 0 2).condensed,
        0 ≤ s ∧ s ≤ ((2 + 1 : ℕ) : ℤ)) :=
  c5_selection_invariants (V := ℚ) ratOps .RR [[1, 0], [0, 1], [1, 1], [0, 0]]
    2 0 (by norm_num) (by decide) (by decide) (by norm_num)
    (fun agg nn h2 hlenm hbounds =>
      lt_of_le_of_lt
        (rr_naryValue_bounds ratOps agg nn h2 hbounds (by omega)).2
        (by norm_num))
    (fun agg hlenm hbounds =>
      (rr_naryValue_bounds ratOps agg 2 (le_refl 2) hbounds (by omega)).2)
    2 (by norm_num)
